import Mathlib

/-!
# Verification of the markdown-to-HTML renderer of `script.js` / `part_000`

This file shallowly embeds the chat-reply markdown renderer — `parseTable`
and `parseMarkdown` from the repository source — as executable functions on
`List Char`, and proves (or refutes) the claims of the specification about
them.

Modelling conventions:
* JavaScript strings are `List Char` (abbreviated `Str` below); a Lean
  `String` literal `s` is injected via `S (s)` = `s.data`.
* Each JavaScript `String.replace(regex, …)` pass is embedded as a dedicated
  left-to-right scanner.  The scanners are written with an explicit fuel
  argument (`fuel = length of the scanned string` at the top-level call) so
  that every definition is structurally recursive and evaluates inside the
  kernel.
* The JavaScript regex class `\s` is modelled as ASCII whitespace.
* `String.prototype.replace` with a *string* pattern replaces only the first
  occurrence and processes `$$`/`$&`/`` $` ``/`$'` in the replacement; both
  behaviours are modelled (`replaceFirst`).
-/

namespace FA

/-- JavaScript strings are modelled as lists of characters. -/
abbrev Str := List Char

/-- Inject a Lean string literal into the model. -/
def S (s : String) : Str := s.data

/-- ASCII whitespace, the model of the JavaScript regex class `\s`
(and of the characters stripped by `String.prototype.trim`). -/
def isWS (c : Char) : Bool :=
  c == ' ' || c == '\t' || c == '\n' || c == '\r' || c == '\x0b' || c == '\x0c'

/-- Decimal digit test, the model of the JavaScript regex class `\d`. -/
def isDigit (c : Char) : Bool :=
  '0' ≤ c && c ≤ '9'

/-- Test `pfx p s`: `p` is a prefix of `s`. -/
def pfx : Str → Str → Bool
  | [], _ => true
  | _ :: _, [] => false
  | a :: p, b :: s => a == b && pfx p s

/-- Index of the first occurrence of `p` in `s` (`none` when absent). -/
def findSeq (p : Str) : Str → Option Nat
  | [] => if p.isEmpty then some 0 else none
  | c :: t => if pfx p (c :: t) then some 0 else (findSeq p t).map (· + 1)

/-- Substring test: does `p` occur in `s`? -/
def containsSeq (p s : Str) : Bool := (findSeq p s).isSome

/-- Number of positions of `s` at which `p` occurs. -/
def countOcc (p : Str) : Str → Nat
  | [] => 0
  | c :: t => (if pfx p (c :: t) then 1 else 0) + countOcc p t

/-- Model of `String.prototype.trim`, start side. -/
def trimL : Str → Str
  | [] => []
  | c :: t => if isWS c then trimL t else c :: t

/-- Model of `String.prototype.trim`: strip ASCII whitespace from both ends. -/
def trim (s : Str) : Str := ((trimL ((trimL s).reverse)).reverse)

/-- Model of `String.prototype.split(sep)` for a one-character separator.
`split "" = [""]`, as in JavaScript. -/
def splitCh (sep : Char) : Str → List Str
  | [] => [[]]
  | c :: t =>
    match splitCh sep t with
    | [] => [[c]]
    | h :: r => if c == sep then [] :: h :: r else (c :: h) :: r

/-- Model of the newline join `Array.prototype.join`. -/
def joinNl : List Str → Str
  | [] => []
  | [l] => l
  | l :: ls => l ++ '\n' :: joinNl ls

/-- Decimal digit character of `n < 10`. -/
def digitCh (n : Nat) : Char := Char.ofNat (48 + n)

/-- Decimal rendering of a natural number, with structural fuel. -/
def natStrGo : Nat → Nat → Str
  | 0, _ => []
  | fuel + 1, n => if n < 10 then [digitCh n] else natStrGo fuel (n / 10) ++ [digitCh (n % 10)]

/-- Decimal rendering of a natural number (the model of `${index}`). -/
def natStr (n : Nat) : Str := natStrGo (n + 1) n

/-!  ## The table extractor (`parseTable`, source lines 331–408) -/

/-- Does a line count as a table row?  The source tests
`lines[j].trim().includes('|')`. -/
def hasPipe (l : Str) : Bool := (trim l).contains '|'

/-- The separator test of source line 355: `/^[\s\|:\-]+$/.test(tableLines[1])`. -/
def isSep (l : Str) : Bool :=
  !l.isEmpty && l.all fun c => isWS c || c == '|' || c == ':' || c == '-'

/-- Source lines 360–363: split a row on `|`, trim each cell, drop empties. -/
def cellsOf (l : Str) : List Str :=
  ((splitCh '|' l).map trim).filter fun c => !c.isEmpty

/-- Source line 367: one header cell. -/
def thCell (c : Str) : Str := S ("<th>") ++ c ++ S ("</th>")

/-- Source line 382: one data cell. -/
def tdCell (c : Str) : Str := S ("<td>") ++ c ++ S ("</td>")

/-- Source lines 373–386: one data row; a row with no cells is skipped. -/
def trRow (l : Str) : Str :=
  match cellsOf l with
  | [] => []
  | cs => S ("<tr>") ++ (cs.map tdCell).flatten ++ S ("</tr>")

/-- Source lines 356–387: render a qualifying run (already trimmed lines)
as an HTML table.  `run.head` is the header, `run[1]` the discarded
separator, the rest data rows. -/
def renderTable (run : List Str) : Str :=
  S ("<table class=\"chat-table\"><thead><tr>")
    ++ ((cellsOf (run.headD [])).map thCell).flatten
    ++ S ("</tr></thead><tbody>")
    ++ ((run.drop 2).map trRow).flatten
    ++ S ("</tbody></table>")

/-- The scanning loop of `parseTable` (source lines 338–401), with fuel
(the loop advances at least one line per iteration). -/
def ptGo : Nat → List Str → List Str
  | 0, ls => ls
  | _ + 1, [] => []
  | fuel + 1, l :: ls =>
    if hasPipe l then
      let runRaw := (l :: ls).takeWhile hasPipe
      let run := runRaw.map trim
      if 3 ≤ run.length && isSep (run.getD 1 []) then
        renderTable run :: ptGo fuel ((l :: ls).drop runRaw.length)
      else
        l :: ptGo fuel ls
    else
      l :: ptGo fuel ls

/-- The line-level table extractor. -/
def ptLines (ls : List Str) : List Str := ptGo ls.length ls

/-- Function `parseTable` (source lines 331–408): split on newlines, extract
tables, re-join with newlines.  The `try`/`catch` body never throws in the
model, so the `catch` fallback (return the input) is unreachable. -/
def parseTable (s : Str) : Str := joinNl (ptLines (splitCh '\n' s))

/-!  ## Generic machinery for the `replace` passes of `parseMarkdown` -/

/-- One fueled left-to-right rewriting pass: at each position try the
matcher `m`; on `some (out, rest)` emit `out` and continue after the
match, otherwise keep one character.  This is the behaviour of a global
JavaScript `replace`. -/
def rwGo (m : Str → Option (Str × Str)) : Nat → Str → Str
  | 0, s => s
  | _ + 1, [] => []
  | fuel + 1, c :: t =>
    match m (c :: t) with
    | some (out, rest) => out ++ rwGo m fuel rest
    | none => c :: rwGo m fuel t

/-- A global `replace` pass with matcher `m`. -/
def rwAll (m : Str → Option (Str × Str)) (s : Str) : Str := rwGo m s.length s

/-- Matcher for an alternation of literal patterns, each with its literal
replacement. -/
def mAny (ps : List (Str × Str)) (s : Str) : Option (Str × Str) :=
  match ps with
  | [] => none
  | (p, o) :: rest =>
    if !p.isEmpty && pfx p s then some (o, s.drop p.length) else mAny rest s

/-- The backtick character (code 96). -/
def btCh : Char := Char.ofNat 96

/-- The single-quote character (code 39). -/
def sqCh : Char := Char.ofNat 39

/-- JavaScript replacement-pattern processing for a string-valued
replacement: `$$`, `$&` (the match), `` $` `` (text before the match) and
`$'` (text after the match) are substituted; everything else is literal. -/
def dollarGo (pre m post : Str) : Str → Str
  | [] => []
  | '$' :: c :: t =>
    if c == '$' then '$' :: dollarGo pre m post t
    else if c == '&' then m ++ dollarGo pre m post t
    else if c == btCh then pre ++ dollarGo pre m post t
    else if c == sqCh then post ++ dollarGo pre m post t
    else '$' :: c :: dollarGo pre m post t
  | c :: t => c :: dollarGo pre m post t

/-- Model of `String.prototype.replace(pattern, replacement)` with a *string*
pattern: replace only the first occurrence, processing `$`-patterns in the
replacement. -/
def replaceFirst (pat repl s : Str) : Str :=
  match findSeq pat s with
  | some i =>
    s.take i ++ dollarGo (s.take i) pat (s.drop (i + pat.length)) repl
      ++ s.drop (i + pat.length)
  | none => s

/-- Apply `f` to every newline-separated line (a `/gm` line-anchored pass). -/
def lineMap (f : Str → Str) (s : Str) : Str := joinNl ((splitCh '\n' s).map f)

/-!  ## The protection step of `parseMarkdown` (source lines 236–240) -/

/-- The opening tag of a rendered table. -/
def ctOpen : Str := S ("<table class=\"chat-table\">")

/-- The closing tag of a rendered table. -/
def ctClose : Str := S ("</table>")

/-- Placeholder substituted for table `i` (source line 239). -/
def placeholder (i : Nat) : Str :=
  S ("<!---TABLE-PLACEHOLDER-") ++ natStr i ++ S ("--->")

/-- The HTML-escaped form of `placeholder i`, the search string of source
line 284. -/
def escPlaceholder (i : Nat) : Str :=
  S ("&lt;!---TABLE-PLACEHOLDER-") ++ natStr i ++ S ("---&gt;")

/-- The paragraph-exempt marker for table `i` (source line 284). -/
def marker (i : Nat) : Str := S ("###TABLE") ++ natStr i ++ S ("###")

/-- The scanner of `html.replace(/<table class="chat-table">[\s\S]*?<\/table>/g, …)`
with the capturing callback: each non-greedy match is appended to the
table list and replaced by its placeholder. -/
def protGo : Nat → List Str → Str → Str × List Str
  | 0, acc, s => (s, acc)
  | _ + 1, acc, [] => ([], acc)
  | fuel + 1, acc, c :: t =>
    if pfx ctOpen (c :: t) then
      let r := (c :: t).drop ctOpen.length
      match findSeq ctClose r with
      | some k =>
        let frag := ctOpen ++ r.take k ++ ctClose
        let out := protGo fuel (acc ++ [frag]) (r.drop (k + ctClose.length))
        (placeholder acc.length ++ out.1, out.2)
      | none =>
        let out := protGo fuel acc t
        (c :: out.1, out.2)
    else
      let out := protGo fuel acc t
      (c :: out.1, out.2)

/-- The table-protection step: returns the text with each captured table
replaced by its placeholder, together with the captured tables in match
order. -/
def protectT (s : Str) : Str × List Str := protGo s.length [] s

/-!  ## The substitution passes of `parseMarkdown` (source lines 242–311) -/

/-- Source line 242: `&`→`&amp;`, `<`→`&lt;`, `>`→`&gt;` (three sequential
global replaces; none of the inserted entities is rescanned, so a single
character map is exact). -/
def escapeHtml : Str → Str
  | [] => []
  | c :: t =>
    (if c == '&' then S ("&amp;")
     else if c == '<' then S ("&lt;")
     else if c == '>' then S ("&gt;") else [c]) ++ escapeHtml t

/-- Source line 245, `/```([\s\S]*?)```/g`: fenced code blocks. -/
def mCode (s : Str) : Option (Str × Str) :=
  if pfx (S ("```")) s then
    let r := s.drop 3
    match findSeq (S ("```")) r with
    | some k =>
      some (S ("<pre><code>") ++ r.take k ++ S ("</code></pre>"), r.drop (k + 3))
    | none => none
  else none

/-- Source line 248, ``/`([^`]+)`/g``: inline code. -/
def mInline (s : Str) : Option (Str × Str) :=
  if pfx (S ("`")) s then
    let t := s.drop 1
    match findSeq (S ("`")) t with
    | some k =>
      if 1 ≤ k then some (S ("<code>") ++ t.take k ++ S ("</code>"), t.drop (k + 1))
      else none
    | none => none
  else none

/-- Source line 251, `/\*\*([^*]+)\*\*/g`: bold.  After the opening `**`
the backtracking search succeeds exactly when the maximal star-free run is
nonempty and is immediately followed by `**`. -/
def mBold (s : Str) : Option (Str × Str) :=
  if pfx (S ("**")) s then
    let t := s.drop 2
    match findSeq (S ("*")) t with
    | some j =>
      if 1 ≤ j && pfx (S ("**")) (t.drop j) then
        some (S ("<strong>") ++ t.take j ++ S ("</strong>"), t.drop (j + 2))
      else none
    | none => none
  else none

/-- Source lines 254–255, `/\*([^*]+)\*/g` and `/_([^_]+)_/g`: italics with
delimiter `d` (a one-character string). -/
def mEmph (d : Str) (s : Str) : Option (Str × Str) :=
  if pfx d s then
    let t := s.drop 1
    match findSeq d t with
    | some j =>
      if 1 ≤ j then some (S ("<em>") ++ t.take j ++ S ("</em>"), t.drop (j + 1))
      else none
    | none => none
  else none

/-- Source line 258, `/^---+$/gm`: a line of three or more hyphens only. -/
def hrLine (l : Str) : Str :=
  if 3 ≤ l.length && l.all (· == '-') then S ("<hr>") else l

/-- Source line 261, `/^&gt; (.+)$/gm`: single-line blockquotes. -/
def bqLine (l : Str) : Str :=
  if pfx (S ("&gt; ")) l && !(l.drop 5).isEmpty then
    S ("<blockquote>") ++ l.drop 5 ++ S ("</blockquote>")
  else l

/-- Source lines 264–266, `/^#+ (.+)$/gm` family: one header pass. -/
def hLine (pref opnT clsT : Str) (l : Str) : Str :=
  if pfx pref l && !(l.drop pref.length).isEmpty then
    opnT ++ l.drop pref.length ++ clsT
  else l

/-- Source line 269, `/^\d+\. (.+)$/gm`: ordered-list items. -/
def olLine (l : Str) : Str :=
  let ds := l.takeWhile isDigit
  if !ds.isEmpty && pfx (S (". ")) (l.drop ds.length)
      && !(l.drop (ds.length + 2)).isEmpty then
    S ("<li class=\"ol-item\">") ++ l.drop (ds.length + 2) ++ S ("</li>")
  else l

/-- Source line 272, `/^[*-] (.+)$/gm`: unordered-list items. -/
def ulLine (l : Str) : Str :=
  if (pfx (S ("- ")) l || pfx (S ("* ")) l) && !(l.drop 2).isEmpty then
    S ("<li class=\"ul-item\">") ++ l.drop 2 ++ S ("</li>")
  else l

/-- The internal opening tag of an ordered-list item. -/
def liOpenOl : Str := S ("<li class=\"ol-item\">")

/-- The internal opening tag of an unordered-list item. -/
def liOpenUl : Str := S ("<li class=\"ul-item\">")

/-- The closing tag of a list item. -/
def liClose : Str := S ("</li>")

/-- The repeated group of source lines 275/279,
`(?:<li class="…-item">.*?<\/li>\s*)+`: parse one maximal greedy run of
items (each item is the opening tag, a lazy stretch up to the first
`</li>`, and its trailing whitespace). -/
def liRunGo (opn : Str) : Nat → Str → Option (Str × Str)
  | 0, _ => none
  | fuel + 1, s =>
    if pfx opn s then
      let r := s.drop opn.length
      match findSeq liClose r with
      | some k =>
        let after := r.drop (k + liClose.length)
        let ws := after.takeWhile isWS
        let item := opn ++ r.take k ++ liClose ++ ws
        match liRunGo opn fuel (after.drop ws.length) with
        | some (more, rest2) => some (item ++ more, rest2)
        | none => some (item, after.drop ws.length)
      | none => none
    else none

/-- Source lines 275/279: wrap a run of list items in `<ol>`/`<ul>`. -/
def mWrap (opn wrapO wrapC : Str) (s : Str) : Option (Str × Str) :=
  match liRunGo opn s.length s with
  | some (txt, rest) => some (wrapO ++ txt ++ wrapC, rest)
  | none => none

/-- Source lines 283–285: replace the escaped placeholder of each table,
in insertion order, by its paragraph-exempt marker padded with blank
lines. -/
def restoreMarkers (n : Nat) (s : Str) : Str :=
  (List.range n).foldl
    (fun h i => replaceFirst (escPlaceholder i) (S ("\n\n") ++ marker i ++ S ("\n\n")) h) s

/-- Source line 288, `/\n\n+/g`: paragraph boundaries. -/
def mPara (s : Str) : Option (Str × Str) :=
  if pfx (S ("\n\n")) s then
    some (S ("</p><p>"), s.drop (s.takeWhile (· == '\n')).length)
  else none

/-- Source line 289, `/\n/g → <br>`. -/
def brAll : Str → Str
  | [] => []
  | c :: t => (if c == '\n' then S ("<br>") else [c]) ++ brAll t

/-- Source line 295, `/<p>###TABLE(\d+)###<\/p>/g`: unwrap a marker from
its paragraph. -/
def mTblUnwrap (s : Str) : Option (Str × Str) :=
  if pfx (S ("<p>###TABLE")) s then
    let r := s.drop 11
    let ds := r.takeWhile isDigit
    if !ds.isEmpty && pfx (S ("###</p>")) (r.drop ds.length) then
      some (S ("###TABLE") ++ ds ++ S ("###"), r.drop (ds.length + 7))
    else none
  else none

/-- Source line 310, `/<p>\s*<\/p>/g`. -/
def mEmptyP (s : Str) : Option (Str × Str) :=
  if pfx (S ("<p>")) s then
    let r := s.drop 3
    let ws := r.takeWhile isWS
    if pfx (S ("</p>")) (r.drop ws.length) then
      some ([], r.drop (ws.length + 4))
    else none
  else none

/-- Source lines 313–316: substitute each marker, in insertion order, by
its stored table HTML (a first-occurrence string replace). -/
def restoreTables (tabs : List Str) (s : Str) : Str :=
  tabs.enum.foldl (fun h p => replaceFirst (marker p.1) p.2 h) s

/-- Source lines 242–316: the whole substitution pipeline applied after
the table-protection step, given the captured tables `tabs`. -/
def afterProtect (tabs : List Str) (t : Str) : Str :=
  let h1 := escapeHtml t
  let h2 := rwAll mCode h1
  let h3 := rwAll mInline h2
  let h4 := rwAll mBold h3
  let h5 := rwAll (mEmph (S ("*"))) h4
  let h6 := rwAll (mEmph (S ("_"))) h5
  let h7 := lineMap hrLine h6
  let h8 := lineMap bqLine h7
  let h9 := lineMap (hLine (S ("### ")) (S ("<h3>")) (S ("</h3>"))) h8
  let h10 := lineMap (hLine (S ("## ")) (S ("<h2>")) (S ("</h2>"))) h9
  let h11 := lineMap (hLine (S ("# ")) (S ("<h1>")) (S ("</h1>"))) h10
  let h12 := lineMap olLine h11
  let h13 := lineMap ulLine h12
  let h14 := rwAll (mWrap liOpenOl (S ("<ol>")) (S ("</ol>"))) h13
  let h15 := rwAll (mAny [(S ("class=\"ol-item\""), [])]) h14
  let h16 := rwAll (mWrap liOpenUl (S ("<ul>")) (S ("</ul>"))) h15
  let h17 := rwAll (mAny [(S ("class=\"ul-item\""), [])]) h16
  let h18 := restoreMarkers tabs.length h17
  let h19 := rwAll mPara h18
  let h20 := brAll h19
  let h21 := S ("<p>") ++ h20 ++ S ("</p>")
  let h22 := rwAll mTblUnwrap h21
  let h23 := rwAll (mAny [(S ("<p><h1>"), S ("<h1>")), (S ("<p><h2>"), S ("<h2>")),
      (S ("<p><h3>"), S ("<h3>"))]) h22
  let h24 := rwAll (mAny [(S ("</h1></p>"), S ("</h1>")), (S ("</h2></p>"), S ("</h2>")),
      (S ("</h3></p>"), S ("</h3>"))]) h23
  let h25 := rwAll (mAny [(S ("<p><hr></p>"), S ("<hr>"))]) h24
  let h26 := rwAll (mAny [(S ("<p><blockquote>"), S ("<blockquote>"))]) h25
  let h27 := rwAll (mAny [(S ("</blockquote></p>"), S ("</blockquote>"))]) h26
  let h28 := rwAll (mAny [(S ("<p><ul>"), S ("<ul>"))]) h27
  let h29 := rwAll (mAny [(S ("</ul></p>"), S ("</ul>"))]) h28
  let h30 := rwAll (mAny [(S ("<p><ol>"), S ("<ol>"))]) h29
  let h31 := rwAll (mAny [(S ("</ol></p>"), S ("</ol>"))]) h30
  let h32 := rwAll (mAny [(S ("<p><pre>"), S ("<pre>"))]) h31
  let h33 := rwAll (mAny [(S ("</pre></p>"), S ("</pre>"))]) h32
  let h34 := rwAll (mAny [(S ("<p></p>"), [])]) h33
  let h35 := rwAll mEmptyP h34
  let h36 := rwAll (mAny [(S ("<p><br></p>"), [])]) h35
  restoreTables tabs h36

/-- The complete `try`-block of `parseMarkdown` (source lines 230–318). -/
def pipeline (text : Str) : Str :=
  let t1 := parseTable text
  let pr := protectT t1
  afterProtect pr.2 pr.1

/-- Source line 322: the `catch` fallback escapes only `<` and `>` of the
original text (two sequential replaces; the first inserts no `>`), and
wraps it in one paragraph. -/
def escAngles : Str → Str
  | [] => []
  | c :: t =>
    (if c == '<' then S ("&lt;") else if c == '>' then S ("&gt;") else [c]) ++ escAngles t

/-- The degraded output of the `catch` branch (source line 322). -/
def fallbackRender (t : Str) : Str := S ("<p>") ++ escAngles t ++ S ("</p>")

/-- The `try`/`catch` boundary of `parseMarkdown`: a failing body
(`none`) is caught and replaced by the degraded output. -/
def tryRender (f : Str → Option Str) (t : Str) : Str :=
  match f t with
  | some r => r
  | none => fallbackRender t

/-- Function `parseMarkdown` (source lines 228–324): the pipeline inside the
`try`/`catch` boundary.  The embedded pipeline is total, so the body never
fails. -/
def parseMarkdown (text : Str) : Str :=
  tryRender (fun s => some (pipeline s)) text

/-!  ## Specification-side predicates and relations -/

/-- No angle bracket occurs in the string. -/
def angleFreeB (s : Str) : Bool := s.all fun c => !(c == '<' || c == '>')

/-- Every ampersand heads one of the three entities the escaping stage
introduces (`&amp;`, `&lt;`, `&gt;`). -/
def ampOk : Str → Bool
  | [] => true
  | c :: t =>
    if c == '&' then
      (pfx (S ("amp;")) t || pfx (S ("lt;")) t || pfx (S ("gt;")) t) && ampOk t
    else ampOk t

/-- Value of a decimal digit string (used to invert `natStr`). -/
def decodeDigits (s : Str) : Nat := s.foldl (fun a c => a * 10 + (c.toNat - 48)) 0

/-- Frame relation for the table extractor: the output line list is the
input line list in which zero or more qualifying runs (nonempty blocks of
pipe-containing lines, at least 3 long, whose second trimmed line is a
separator) have each been replaced by their rendered table, and *every
other line is kept verbatim, in its original position*. -/
inductive PTFrame : List Str → List Str → Prop
  | nil : PTFrame [] []
  | keep (l : Str) (ls o : List Str) : PTFrame ls o → PTFrame (l :: ls) (l :: o)
  | tabl (pre rest : List Str) (o : List Str) :
      pre ≠ [] → (∀ l ∈ pre, hasPipe l = true) →
      3 ≤ pre.length → isSep ((pre.map trim).getD 1 []) = true →
      PTFrame rest o → PTFrame (pre ++ rest) (renderTable (pre.map trim) :: o)

/-- Frame relation for the table-protection step, with `n` the index of
the next placeholder: the output text is the input in which each
`<table class="chat-table">…</table>` fragment captured by the scan has
been replaced, in place, by exactly one placeholder, the placeholders are
numbered consecutively in match order, and the captured fragments are
recorded in the same order. -/
inductive ProtFrame : Nat → Str → Str → List Str → Prop
  | nil (n : Nat) : ProtFrame n [] [] []
  | keep (n : Nat) (c : Char) (s t : Str) (tabs : List Str) :
      ProtFrame n s t tabs → ProtFrame n (c :: s) (c :: t) tabs
  | tabl (n : Nat) (mid rest t : Str) (tabs : List Str) :
      ProtFrame (n + 1) rest t tabs →
      ProtFrame n (ctOpen ++ mid ++ ctClose ++ rest)
        (placeholder n ++ t) ((ctOpen ++ mid ++ ctClose) :: tabs)

/-- Absence of straddling: no nonempty proper suffix of `x` shorter than
`p` is a prefix of `p`; occurrences of `p` then cannot cross the right
boundary of `x`. -/
def noStraddleB (p x : Str) : Bool :=
  x.tails.all fun u => u.isEmpty || !(decide (u.length < p.length)) || !pfx u p

/-- All tags the renderer introduces in the table-free pipeline path,
including the intermediate list-item tags rewritten by later passes. -/
def tagSet : List Str :=
  [S ("<p>"), S ("</p>"), S ("<br>"), S ("<strong>"), S ("</strong>"),
   S ("<em>"), S ("</em>"), S ("<code>"), S ("</code>"), S ("<pre>"), S ("</pre>"),
   S ("<hr>"), S ("<h1>"), S ("</h1>"), S ("<h2>"), S ("</h2>"), S ("<h3>"), S ("</h3>"),
   S ("<blockquote>"), S ("</blockquote>"), S ("<ol>"), S ("</ol>"), S ("<ul>"),
   S ("</ul>"), S ("<li class=\"ol-item\">"), S ("<li class=\"ul-item\">"),
   S ("<li >"), S ("</li>")]

/-- First tag of `ts` that is a prefix of `s`. -/
def findTag (ts : List Str) (s : Str) : Option Str := ts.find? fun tg => pfx tg s

/-- Scanner for the markup discipline: every `<` must begin a tag of
`ts`, which is then skipped whole, and no `>` may occur outside a
skipped tag. -/
def tagsOnlyGo (ts : List Str) : Nat → Str → Bool
  | 0, s => s.isEmpty
  | _ + 1, [] => true
  | fuel + 1, c :: t =>
    if c == '<' then
      match findTag ts (c :: t) with
      | some tg => tagsOnlyGo ts fuel ((c :: t).drop tg.length)
      | none => false
    else if c == '>' then false
    else tagsOnlyGo ts fuel t

/-- Markup discipline of a rendered string: every angle bracket belongs
to a tag of `ts`. -/
def tagsOnly (ts : List Str) (s : Str) : Bool := tagsOnlyGo ts s.length s

/-- Tag-list sanity: tags are nonempty, start with `<`, contain `<` only
in head position, and end with their only `>`. -/
def tagsShape (ts : List Str) : Bool :=
  ts.all fun tg =>
    !tg.isEmpty && pfx (S ("<")) tg && (tg.drop 1).all (fun c => !(c == '<'))
      && (tg.dropLast).all (fun c => !(c == '>')) && pfx (S (">")) tg.reverse

/-- Tag-list sanity: no tag is a proper prefix of another. -/
def tagsFree (ts : List Str) : Bool :=
  ts.all fun a => ts.all fun b => a == b || !pfx a b

/-- No occurrence of `pat` can start inside `tg`, whatever follows `tg`:
at every shift either the pattern mismatches within `tg`, or the leftover
of `tg` is itself no prefix of the pattern. -/
def noFireInside (pat tg : Str) : Bool :=
  (List.range tg.length).all fun i =>
    if pat.length ≤ (tg.drop i).length then !pfx pat (tg.drop i)
    else !pfx (tg.drop i) pat

/-- Structural view of a string obeying the markup discipline: it is a
concatenation of items, each item either one full tag of `ts` or one
ordinary character (neither `<` nor `>`). -/
inductive TagText (ts : List Str) : Str → Prop
  | nil : TagText ts []
  | ord (c : Char) (s : Str) : ¬ c = '<' → ¬ c = '>' → TagText ts s → TagText ts (c :: s)
  | tag (tg s : Str) : tg ∈ ts → TagText ts s → TagText ts (tg ++ s)

/-!  ## General lemmas about the string primitives -/

theorem pfx_length_le {p s : Str} (h : pfx p s = true) : p.length ≤ s.length := by
  induction p generalizing s with
  | nil => simp
  | cons a p ih =>
    cases s with
    | nil => simp [pfx] at h
    | cons b t =>
      simp only [pfx, Bool.and_eq_true] at h
      simpa using ih h.2

theorem pfx_eq_append {p s : Str} (h : pfx p s = true) : s = p ++ s.drop p.length := by
  induction p generalizing s with
  | nil => simp
  | cons a p ih =>
    cases s with
    | nil => simp [pfx] at h
    | cons b t =>
      simp only [pfx, Bool.and_eq_true, beq_iff_eq] at h
      obtain ⟨rfl, hp⟩ := h
      simpa using ih hp

theorem findSeq_none {p : Str} {c : Char} {t : Str} (h : findSeq p (c :: t) = none) :
    pfx p (c :: t) = false ∧ findSeq p t = none := by
  by_cases hp : pfx p (c :: t) = true
  · simp [findSeq, hp] at h
  · refine ⟨by simpa using hp, ?_⟩
    simp only [findSeq, hp, if_false] at h
    simpa using h

theorem findSeq_some_pfx {p s : Str} {k : Nat} (h : findSeq p s = some k) :
    pfx p (s.drop k) = true := by
  induction s generalizing k with
  | nil =>
    simp only [findSeq] at h
    by_cases hp : p.isEmpty
    · have hpe : p = [] := by simpa [List.isEmpty_iff] using hp
      simp [hpe, pfx]
    · simp [hp] at h
  | cons c t ih =>
    by_cases hp : pfx p (c :: t) = true
    · simp only [findSeq, hp, if_true, Option.some.injEq] at h
      subst h
      simpa using hp
    · have hp' : pfx p (c :: t) = false := by simpa using hp
      simp only [findSeq, hp', Bool.false_eq_true, if_false, Option.map_eq_some'] at h
      obtain ⟨k', hk', rfl⟩ := h
      simpa using ih hk'

theorem splitCh_ne_nil (sep : Char) (s : Str) : splitCh sep s ≠ [] := by
  cases s with
  | nil => simp [splitCh]
  | cons c t =>
    cases hsp : splitCh sep t with
    | nil => simp [splitCh, hsp]
    | cons h r =>
      by_cases hc : c == sep <;> simp [splitCh, hsp, hc]

theorem joinNl_splitCh (s : Str) : joinNl (splitCh '\n' s) = s := by
  induction s with
  | nil => rfl
  | cons c t ih =>
    cases hsp : splitCh '\n' t with
    | nil => exact absurd hsp (splitCh_ne_nil _ _)
    | cons h r =>
      rw [hsp] at ih
      by_cases hc : c = '\n'
      · subst hc
        simp only [splitCh, hsp, beq_self_eq_true, if_true]
        cases r with
        | nil => simpa [joinNl] using ih
        | cons h2 r2 => simpa [joinNl] using ih
      · have hcb : (c == '\n') = false := by simpa using hc
        simp only [splitCh, hsp, hcb, if_false]
        cases r with
        | nil => simpa [joinNl] using congrArg (c :: ·) ih
        | cons h2 r2 => simpa [joinNl] using congrArg (c :: ·) ih

theorem mem_of_mem_splitCh {sep : Char} {c : Char} {l s : Str}
    (hl : l ∈ splitCh sep s) (hc : c ∈ l) : c ∈ s := by
  induction s generalizing l with
  | nil =>
    simp only [splitCh, List.mem_singleton] at hl
    subst hl
    simp at hc
  | cons d t ih =>
    cases hsp : splitCh sep t with
    | nil => exact absurd hsp (splitCh_ne_nil _ _)
    | cons h r =>
      rw [splitCh, hsp] at hl
      by_cases hd : d == sep
      · simp only [hd, if_true] at hl
        rcases List.mem_cons.mp hl with rfl | hl'
        · simp at hc
        · exact List.mem_cons_of_mem d (ih (hsp ▸ hl') hc)
      · simp only [hd, Bool.false_eq_true, if_false] at hl
        rcases List.mem_cons.mp hl with rfl | hl'
        · rcases List.mem_cons.mp hc with rfl | hch
          · exact List.mem_cons_self _ _
          · exact List.mem_cons_of_mem d (ih (hsp ▸ List.mem_cons_self h r) hch)
        · exact List.mem_cons_of_mem d (ih (hsp ▸ List.mem_cons_of_mem h hl') hc)

theorem mem_of_mem_trimL {c : Char} {s : Str} (h : c ∈ trimL s) : c ∈ s := by
  induction s with
  | nil => simp [trimL] at h
  | cons d t ih =>
    rw [trimL] at h
    by_cases hw : isWS d
    · simp only [hw, if_true] at h
      exact List.mem_cons_of_mem d (ih h)
    · simpa [hw] using h

theorem mem_of_mem_trim {c : Char} {s : Str} (h : c ∈ trim s) : c ∈ s := by
  unfold trim at h
  rw [List.mem_reverse] at h
  have h2 := mem_of_mem_trimL h
  rw [List.mem_reverse] at h2
  exact mem_of_mem_trimL h2

theorem splitCh_of_not_mem {sep : Char} {l : Str} (h : sep ∉ l) :
    splitCh sep l = [l] := by
  induction l with
  | nil => rfl
  | cons c t ih =>
    have hc : (c == sep) = false := by
      simp only [beq_eq_false_iff_ne, ne_eq]
      intro hce
      exact h (hce ▸ List.mem_cons_self c t)
    have ht := ih (fun hm => h (List.mem_cons_of_mem c hm))
    simp [splitCh, ht, hc]

theorem splitCh_append_sep {sep : Char} {l : Str} (t : Str) (h : sep ∉ l) :
    splitCh sep (l ++ sep :: t) = l :: splitCh sep t := by
  induction l with
  | nil =>
    cases hsp : splitCh sep t with
    | nil => exact absurd hsp (splitCh_ne_nil _ _)
    | cons h2 r2 => simp [splitCh, hsp]
  | cons c l' ih =>
    have hc : (c == sep) = false := by
      simp only [beq_eq_false_iff_ne, ne_eq]
      intro hce
      exact h (hce ▸ List.mem_cons_self c l')
    have ht := ih (fun hm => h (List.mem_cons_of_mem c hm))
    cases hsp : splitCh sep (l' ++ sep :: t) with
    | nil => exact absurd hsp (splitCh_ne_nil _ _)
    | cons h2 r2 =>
      rw [hsp] at ht
      obtain ⟨rfl, hrest⟩ : h2 = l' ∧ r2 = splitCh sep t := by
        cases ht
        exact ⟨rfl, rfl⟩
      simp [List.cons_append, splitCh, hsp, hc, hrest]

/-!  ## Lemmas about the table-extraction loop -/

theorem hasPipe_eq_false {l : Str} (h : '|' ∉ l) : hasPipe l = false := by
  rw [hasPipe]
  by_cases hc : (trim l).contains '|' = true
  · exact absurd (mem_of_mem_trim (by simpa using hc)) h
  · simpa using hc

theorem takeWhile_append_drop {α : Type} (p : α → Bool) (ls : List α) :
    ls.takeWhile p ++ ls.drop (ls.takeWhile p).length = ls := by
  induction ls with
  | nil => rfl
  | cons l t ih =>
    by_cases hp : p l
    · simpa [List.takeWhile_cons, hp] using ih
    · simp [List.takeWhile_cons, hp]

theorem ptGo_fuel_eq : ∀ f1 f2 : Nat, ∀ ls : List Str,
    ls.length ≤ f1 → ls.length ≤ f2 → ptGo f1 ls = ptGo f2 ls := by
  intro f1
  induction f1 with
  | zero =>
    intro f2 ls h1 _
    have : ls = [] := List.length_eq_zero.mp (Nat.le_zero.mp h1)
    subst this
    cases f2 <;> rfl
  | succ f ih =>
    intro f2 ls h1 h2
    cases ls with
    | nil => cases f2 <;> rfl
    | cons l t =>
      cases f2 with
      | zero => simp at h2
      | succ g =>
        simp only [ptGo]
        by_cases hp : hasPipe l
        · simp only [hp, if_true]
          by_cases hq : (decide (3 ≤ (((l :: t).takeWhile hasPipe).map trim).length)
              && isSep ((((l :: t).takeWhile hasPipe).map trim).getD 1 [])) = true
          · rw [hq]
            have hne : ((l :: t).takeWhile hasPipe).length ≥ 1 := by
              simp [List.takeWhile_cons, hp]
            have hlen : ((l :: t).drop ((l :: t).takeWhile hasPipe).length).length ≤ f := by
              have := List.length_drop ((l :: t).takeWhile hasPipe).length (l :: t)
              simp only [this]
              simp only [List.length_cons] at h1 ⊢
              omega
            have hlen2 : ((l :: t).drop ((l :: t).takeWhile hasPipe).length).length ≤ g := by
              have := List.length_drop ((l :: t).takeWhile hasPipe).length (l :: t)
              simp only [this]
              simp only [List.length_cons] at h2 ⊢
              omega
            simp only [if_true]
            rw [ih g _ hlen hlen2]
          · have hq' : (decide (3 ≤ (((l :: t).takeWhile hasPipe).map trim).length)
                && isSep ((((l :: t).takeWhile hasPipe).map trim).getD 1 [])) = false := by
              simpa using hq
            rw [hq']
            simp only [Bool.false_eq_true, if_false]
            have h1' : t.length ≤ f := by simp at h1; omega
            have h2' : t.length ≤ g := by simp at h2; omega
            rw [ih g t h1' h2']
        · simp only [hp, Bool.false_eq_true, if_false]
          have h1' : t.length ≤ f := by simp at h1; omega
          have h2' : t.length ≤ g := by simp at h2; omega
          rw [ih g t h1' h2']

theorem ptLines_cons_of_table {l : Str} {ls : List Str} (hp : hasPipe l = true)
    (hq : 3 ≤ (((l :: ls).takeWhile hasPipe).map trim).length ∧
      isSep ((((l :: ls).takeWhile hasPipe).map trim).getD 1 []) = true) :
    ptLines (l :: ls) = renderTable (((l :: ls).takeWhile hasPipe).map trim) ::
      ptLines ((l :: ls).drop ((l :: ls).takeWhile hasPipe).length) := by
  have hg : (decide (3 ≤ (((l :: ls).takeWhile hasPipe).map trim).length)
      && isSep ((((l :: ls).takeWhile hasPipe).map trim).getD 1 [])) = true := by
    rw [hq.2, Bool.and_true]
    exact decide_eq_true hq.1
  show ptGo (ls.length + 1) (l :: ls) = _
  rw [ptGo]
  simp only [hp, if_true, hg]
  have hlen : ((l :: ls).drop ((l :: ls).takeWhile hasPipe).length).length ≤ ls.length := by
    have hne : ((l :: ls).takeWhile hasPipe).length ≥ 1 := by
      simp [List.takeWhile_cons, hp]
    have := List.length_drop ((l :: ls).takeWhile hasPipe).length (l :: ls)
    simp only [this, List.length_cons]
    omega
  rw [ptGo_fuel_eq ls.length _ _ hlen (Nat.le_refl _)]
  rfl

theorem ptLines_cons_of_failed_run {l : Str} {ls : List Str} (hp : hasPipe l = true)
    (hq : ¬ (3 ≤ (((l :: ls).takeWhile hasPipe).map trim).length ∧
      isSep ((((l :: ls).takeWhile hasPipe).map trim).getD 1 []) = true)) :
    ptLines (l :: ls) = l :: ptLines ls := by
  have hg : (decide (3 ≤ (((l :: ls).takeWhile hasPipe).map trim).length)
      && isSep ((((l :: ls).takeWhile hasPipe).map trim).getD 1 [])) = false := by
    rcases Decidable.em (3 ≤ (((l :: ls).takeWhile hasPipe).map trim).length) with h3 | h3
    · rcases Decidable.em
        (isSep ((((l :: ls).takeWhile hasPipe).map trim).getD 1 []) = true) with hs | hs
      · exact absurd ⟨h3, hs⟩ hq
      · have hs' : isSep ((((l :: ls).takeWhile hasPipe).map trim).getD 1 []) = false := by
          simpa using hs
        rw [hs', Bool.and_false]
    · rw [decide_eq_false h3, Bool.false_and]
  show ptGo (ls.length + 1) (l :: ls) = _
  rw [ptGo]
  simp only [hp, if_true, hg]
  simp only [Bool.false_eq_true, if_false]
  rfl

theorem ptLines_cons_of_no_pipe {l : Str} {ls : List Str} (hp : hasPipe l = false) :
    ptLines (l :: ls) = l :: ptLines ls := by
  show ptGo (ls.length + 1) (l :: ls) = _
  rw [ptGo]
  simp [hp]
  rfl

theorem ptFrame_ptLines : ∀ n : Nat, ∀ ls : List Str, ls.length ≤ n →
    PTFrame ls (ptLines ls) := by
  intro n
  induction n with
  | zero =>
    intro ls h
    have : ls = [] := List.length_eq_zero.mp (Nat.le_zero.mp h)
    subst this
    exact PTFrame.nil
  | succ n ih =>
    intro ls h
    cases ls with
    | nil => exact PTFrame.nil
    | cons l t =>
      by_cases hp : hasPipe l = true
      · by_cases hq : (3 ≤ (((l :: t).takeWhile hasPipe).map trim).length ∧
            isSep ((((l :: t).takeWhile hasPipe).map trim).getD 1 []) = true)
        · rw [ptLines_cons_of_table hp hq]
          have hsplit := takeWhile_append_drop hasPipe (l :: t)
          have hrest : ((l :: t).drop ((l :: t).takeWhile hasPipe).length).length ≤ n := by
            have hne : ((l :: t).takeWhile hasPipe).length ≥ 1 := by
              simp [List.takeWhile_cons, hp]
            have hd := List.length_drop ((l :: t).takeWhile hasPipe).length (l :: t)
            simp only [hd, List.length_cons]
            simp only [List.length_cons] at h
            omega
          have hfr : PTFrame
              (((l :: t).takeWhile hasPipe) ++
                ((l :: t).drop ((l :: t).takeWhile hasPipe).length))
              (renderTable (((l :: t).takeWhile hasPipe).map trim) ::
                ptLines ((l :: t).drop ((l :: t).takeWhile hasPipe).length)) := by
            refine PTFrame.tabl _ _ _ ?_ ?_ ?_ hq.2 (ih _ hrest)
            · simp [List.takeWhile_cons, hp]
            · intro x hx
              exact List.mem_takeWhile_imp hx
            · simpa using hq.1
          rwa [hsplit] at hfr
        · rw [ptLines_cons_of_failed_run hp hq]
          refine PTFrame.keep _ _ _ (ih t ?_)
          simp only [List.length_cons] at h
          omega
      · have hp' : hasPipe l = false := by simpa using hp
        rw [ptLines_cons_of_no_pipe hp']
        refine PTFrame.keep _ _ _ (ih t ?_)
        simp only [List.length_cons] at h
        omega

/-!  ## Lemmas for the escaping stage and the identity paths -/

theorem ptGo_id {fuel : Nat} : ∀ {ls : List Str},
    (∀ l ∈ ls, hasPipe l = false) → ptGo fuel ls = ls := by
  induction fuel with
  | zero => intro ls _; rfl
  | succ n ih =>
    intro ls h
    cases ls with
    | nil => rfl
    | cons l t =>
      have hl : hasPipe l = false := h l (List.mem_cons_self _ _)
      rw [ptGo]
      simp only [hl, Bool.false_eq_true, if_false]
      rw [ih fun x hx => h x (List.mem_cons_of_mem l hx)]

theorem parseTable_id {s : Str} (h : '|' ∉ s) : parseTable s = s := by
  have hall : ∀ l ∈ splitCh '\n' s, hasPipe l = false := by
    intro l hl
    refine hasPipe_eq_false fun hm => h ?_
    exact mem_of_mem_splitCh hl hm
  show joinNl (ptGo (splitCh '\n' s).length (splitCh '\n' s)) = s
  rw [ptGo_id hall, joinNl_splitCh]

theorem protGo_id {fuel : Nat} : ∀ {acc : List Str} {s : Str},
    containsSeq ctOpen s = false → protGo fuel acc s = (s, acc) := by
  induction fuel with
  | zero => intro acc s _; rfl
  | succ n ih =>
    intro acc s h
    cases s with
    | nil => rfl
    | cons c t =>
      have hn : findSeq ctOpen (c :: t) = none := by
        simpa [containsSeq, Option.isSome_iff_exists] using h
      obtain ⟨hp, ht⟩ := findSeq_none hn
      rw [protGo]
      simp only [hp, Bool.false_eq_true, if_false]
      have hts : containsSeq ctOpen t = false := by
        simpa [containsSeq] using congrArg Option.isSome ht
      have hrec : protGo n acc t = (t, acc) := ih hts
      rw [hrec]

theorem angleFree_escapeHtml (s : Str) : angleFreeB (escapeHtml s) = true := by
  induction s with
  | nil => rfl
  | cons c t ih =>
    rw [escapeHtml]
    by_cases h1 : c == '&'
    · simp only [h1, if_true]
      simpa [angleFreeB, S] using ih
    · by_cases h2 : c == '<'
      · simp only [h1, Bool.false_eq_true, if_false, h2, if_true]
        simpa [angleFreeB, S] using ih
      · by_cases h3 : c == '>'
        · simp only [h1, h2, Bool.false_eq_true, if_false, h3, if_true]
          simpa [angleFreeB, S] using ih
        · simp only [h1, h2, h3, Bool.false_eq_true, if_false]
          have hc2 : (c == '<') = false := by simpa using h2
          have hc3 : (c == '>') = false := by simpa using h3
          simpa [angleFreeB, hc2, hc3] using ih

theorem ampOk_escapeHtml (s : Str) : ampOk (escapeHtml s) = true := by
  induction s with
  | nil => rfl
  | cons c t ih =>
    rw [escapeHtml]
    by_cases h1 : c == '&'
    · simp only [h1, if_true]
      simpa [ampOk, S, pfx] using ih
    · by_cases h2 : c == '<'
      · simp only [h1, Bool.false_eq_true, if_false, h2, if_true]
        simpa [ampOk, S, pfx] using ih
      · by_cases h3 : c == '>'
        · simp only [h1, h2, Bool.false_eq_true, if_false, h3, if_true]
          simpa [ampOk, S, pfx] using ih
        · simp only [h1, h2, h3, Bool.false_eq_true, if_false]
          have hc1 : (c == '&') = false := by simpa using h1
          simpa [ampOk, hc1] using ih

/-!  ## The frame theorem of the protection scanner -/

theorem protGo_frame : ∀ fuel : Nat, ∀ acc : List Str, ∀ s : Str, s.length ≤ fuel →
    ∃ t tabs, protGo fuel acc s = (t, acc ++ tabs) ∧ ProtFrame acc.length s t tabs := by
  intro fuel
  induction fuel with
  | zero =>
    intro acc s h
    have : s = [] := List.length_eq_zero.mp (Nat.le_zero.mp h)
    subst this
    exact ⟨[], [], by simp [protGo], ProtFrame.nil _⟩
  | succ n ih =>
    intro acc s h
    cases s with
    | nil => exact ⟨[], [], by simp [protGo], ProtFrame.nil _⟩
    | cons c t =>
      by_cases ho : pfx ctOpen (c :: t) = true
      · cases hf : findSeq ctClose ((c :: t).drop ctOpen.length) with
        | none =>
          obtain ⟨t', tabs', heq, hfr⟩ := ih acc t (by simp at h; omega)
          refine ⟨c :: t', tabs', ?_, ProtFrame.keep _ _ _ _ _ hfr⟩
          rw [protGo]
          simp only [ho, if_true, hf, heq]
        | some k =>
          have hrest_len :
              (((c :: t).drop ctOpen.length).drop (k + ctClose.length)).length ≤ n := by
            have e26 : ctOpen.length = 26 := by decide
            simp only [List.length_drop, e26, List.length_cons]
            simp only [List.length_cons] at h
            omega
          obtain ⟨t', tabs', heq, hfr⟩ :=
            ih (acc ++ [ctOpen ++ ((c :: t).drop ctOpen.length).take k ++ ctClose])
              (((c :: t).drop ctOpen.length).drop (k + ctClose.length)) hrest_len
          refine ⟨placeholder acc.length ++ t',
            (ctOpen ++ ((c :: t).drop ctOpen.length).take k ++ ctClose) :: tabs', ?_, ?_⟩
          · rw [protGo]
            simp only [ho, if_true, hf]
            rw [heq]
            simp [List.append_assoc]
          · have hds : (c :: t) =
                ((ctOpen ++ ((c :: t).drop ctOpen.length).take k) ++ ctClose) ++
                  ((c :: t).drop ctOpen.length).drop (k + ctClose.length) := by
              have e1 : (c :: t) = ctOpen ++ (c :: t).drop ctOpen.length :=
                pfx_eq_append ho
              have hpc : pfx ctClose (((c :: t).drop ctOpen.length).drop k) = true :=
                findSeq_some_pfx hf
              have e2 : ((c :: t).drop ctOpen.length).drop k =
                  ctClose ++ (((c :: t).drop ctOpen.length).drop k).drop ctClose.length :=
                pfx_eq_append hpc
              have e3 : (((c :: t).drop ctOpen.length).drop k).drop ctClose.length =
                  ((c :: t).drop ctOpen.length).drop (k + ctClose.length) := by
                rw [List.drop_drop, Nat.add_comm]
              have e4 : (c :: t).drop ctOpen.length =
                  ((c :: t).drop ctOpen.length).take k ++
                    ((c :: t).drop ctOpen.length).drop k :=
                (List.take_append_drop k _).symm
              calc c :: t = ctOpen ++ (c :: t).drop ctOpen.length := e1
                _ = ctOpen ++ (((c :: t).drop ctOpen.length).take k ++
                      ((c :: t).drop ctOpen.length).drop k) := by rw [← e4]
                _ = ctOpen ++ (((c :: t).drop ctOpen.length).take k ++
                      (ctClose ++ ((c :: t).drop ctOpen.length).drop (k + ctClose.length))) := by
                    rw [← e3, ← e2]
                _ = _ := by simp [List.append_assoc]
            have hacc : (acc ++
                [ctOpen ++ ((c :: t).drop ctOpen.length).take k ++ ctClose]).length =
                acc.length + 1 := by simp
            rw [hacc] at hfr
            have hout := ProtFrame.tabl acc.length
              (((c :: t).drop ctOpen.length).take k)
              (((c :: t).drop ctOpen.length).drop (k + ctClose.length)) t' tabs' hfr
            rw [← hds] at hout
            exact hout
      · obtain ⟨t', tabs', heq, hfr⟩ := ih acc t (by simp at h; omega)
        refine ⟨c :: t', tabs', ?_, ProtFrame.keep _ _ _ _ _ hfr⟩
        rw [protGo]
        simp only [ho, Bool.false_eq_true, if_false, heq]

/-- The protection step realises the `ProtFrame` relation. -/
theorem protectT_frame (s : Str) : ProtFrame 0 s (protectT s).1 (protectT s).2 := by
  obtain ⟨t, tabs, heq, hfr⟩ := protGo_frame s.length [] s (Nat.le_refl _)
  show ProtFrame 0 s (protGo s.length [] s).1 (protGo s.length [] s).2
  rw [heq]
  simpa using hfr

/-!  ## Injectivity of the decimal tokens -/

theorem digitCh_toNat : ∀ k : Nat, k < 10 → (digitCh k).toNat = 48 + k := by decide

theorem natStrGo_fuel_eq : ∀ f1 : Nat, ∀ f2 n : Nat, n < 10 ^ f1 → n < 10 ^ f2 →
    1 ≤ f1 → 1 ≤ f2 → natStrGo f1 n = natStrGo f2 n := by
  intro f1
  induction f1 with
  | zero => intro f2 n _ _ hf1 _; omega
  | succ f ih =>
    intro f2 n h1 h2 _ hf2
    cases f2 with
    | zero => omega
    | succ g =>
      rw [natStrGo, natStrGo]
      by_cases hn : n < 10
      · simp [hn]
      · simp only [hn, if_false]
        have hdiv1 : n / 10 < 10 ^ f := by
          rw [Nat.div_lt_iff_lt_mul (by norm_num : (0 : Nat) < 10)]
          calc n < 10 ^ (f + 1) := h1
            _ = 10 ^ f * 10 := by rw [pow_succ]
        have hdiv2 : n / 10 < 10 ^ g := by
          rw [Nat.div_lt_iff_lt_mul (by norm_num : (0 : Nat) < 10)]
          calc n < 10 ^ (g + 1) := h2
            _ = 10 ^ g * 10 := by rw [pow_succ]
        have hone : 1 ≤ n / 10 := (Nat.one_le_div_iff (by norm_num)).mpr (le_of_not_lt hn)
        have hf : 1 ≤ f := by
          by_contra hc
          have : f = 0 := by omega
          subst this
          simp at hdiv1
          omega
        have hg : 1 ≤ g := by
          by_contra hc
          have : g = 0 := by omega
          subst this
          simp at hdiv2
          omega
        rw [ih g (n / 10) hdiv1 hdiv2 hf hg]

theorem decode_append_digit (a : Str) (d : Char) :
    decodeDigits (a ++ [d]) = decodeDigits a * 10 + (d.toNat - 48) := by
  simp [decodeDigits, List.foldl_append]

theorem decode_natStr : ∀ n : Nat, decodeDigits (natStr n) = n := by
  intro n
  induction n using Nat.strong_induction_on with
  | _ n ih =>
    by_cases hn : n < 10
    · rw [natStr, natStrGo]
      simp only [hn, if_true]
      have hd := digitCh_toNat n hn
      simp [decodeDigits, hd]
    · have hng : natStr n = natStrGo n (n / 10) ++ [digitCh (n % 10)] := by
        rw [natStr, natStrGo]
        simp [hn]
      have hpow1 : n / 10 < 10 ^ n := by
        calc n / 10 ≤ n := Nat.div_le_self n 10
          _ < 10 ^ n := Nat.lt_pow_self (by norm_num) n
      have hpow2 : n / 10 < 10 ^ (n / 10 + 1) := by
        calc n / 10 < 10 ^ (n / 10) := Nat.lt_pow_self (by norm_num) _
          _ ≤ 10 ^ (n / 10 + 1) := Nat.pow_le_pow_right (by norm_num) (Nat.le_succ _)
      have hfuel : natStrGo n (n / 10) = natStr (n / 10) := by
        rw [natStr]
        exact natStrGo_fuel_eq n (n / 10 + 1) (n / 10) hpow1 hpow2 (by omega) (by omega)
      rw [hng, hfuel, decode_append_digit,
        ih (n / 10) (Nat.div_lt_self (by omega) (by norm_num)),
        digitCh_toNat (n % 10) (Nat.mod_lt n (by norm_num))]
      omega

theorem natStr_inj {m n : Nat} (h : natStr m = natStr n) : m = n := by
  have h2 := congrArg decodeDigits h
  rwa [decode_natStr, decode_natStr] at h2

theorem marker_inj {i j : Nat} (h : marker i = marker j) : i = j := by
  unfold marker at h
  have h1 : S ("###TABLE") ++ natStr i = S ("###TABLE") ++ natStr j :=
    List.append_cancel_right h
  exact natStr_inj (List.append_cancel_left h1)

theorem placeholder_inj {i j : Nat} (h : placeholder i = placeholder j) : i = j := by
  unfold placeholder at h
  have h1 : S ("<!---TABLE-PLACEHOLDER-") ++ natStr i =
      S ("<!---TABLE-PLACEHOLDER-") ++ natStr j := List.append_cancel_right h
  exact natStr_inj (List.append_cancel_left h1)

/-!  ## Occurrence counting for the table-shape claim -/

theorem pfx_append_of_le {p a : Str} (y : Str) (h : p.length ≤ a.length) :
    pfx p (a ++ y) = pfx p a := by
  induction p generalizing a with
  | nil => simp [pfx]
  | cons x p ih =>
    cases a with
    | nil => simp at h
    | cons b a' =>
      simp only [List.cons_append, pfx, List.append_eq]
      rw [ih (by simpa using h)]

theorem pfx_gt_length {p s : Str} (h : s.length < p.length) : pfx p s = false := by
  by_cases hp : pfx p s = true
  · have := pfx_length_le hp
    omega
  · simpa using hp

theorem pfx_append_false {u p : Str} (y : Str) (hlen : u.length < p.length)
    (h : pfx u p = false) : pfx p (u ++ y) = false := by
  induction u generalizing p with
  | nil => simp [pfx] at h
  | cons b u' ih =>
    cases p with
    | nil => simp at hlen
    | cons a p' =>
      simp only [pfx] at h
      simp only [List.cons_append, pfx, List.append_eq]
      cases hba : (b == a) with
      | false =>
        have : (a == b) = false := by
          simp only [beq_eq_false_iff_ne] at hba ⊢
          exact fun he => hba he.symm
        simp [this]
      | true =>
        rw [hba, Bool.true_and] at h
        rw [ih (by simpa using hlen) h, Bool.and_false]

theorem noStraddleB_tail {p : Str} {c : Char} {x : Str}
    (h : noStraddleB p (c :: x) = true) : noStraddleB p x = true := by
  simp only [noStraddleB, List.all_eq_true] at h ⊢
  intro u hu
  exact h u (by rw [List.tails_cons]; exact List.mem_cons_of_mem _ hu)

theorem countOcc_append {p : Str} : ∀ x y : Str,
    noStraddleB p x = true → countOcc p (x ++ y) = countOcc p x + countOcc p y := by
  intro x
  induction x with
  | nil =>
    intro y _
    simp [countOcc]
  | cons c x' ih =>
    intro y hns
    have hkey : pfx p ((c :: x') ++ y) = pfx p (c :: x') := by
      by_cases hle : p.length ≤ (c :: x').length
      · exact pfx_append_of_le y hle
      · push_neg at hle
        have h1 : pfx p (c :: x') = false := pfx_gt_length hle
        have hu : pfx (c :: x') p = false := by
          simp only [noStraddleB, List.all_eq_true] at hns
          have hx := hns (c :: x') (by rw [List.tails_cons]; exact List.mem_cons_self _ _)
          simp only [List.isEmpty_cons, Bool.false_or] at hx
          rw [decide_eq_true hle] at hx
          simpa using hx
        have h2 : pfx p ((c :: x') ++ y) = false := pfx_append_false y hle hu
        rw [h1, h2]
    have e1 : (c :: x') ++ y = c :: (x' ++ y) := rfl
    rw [e1, countOcc, ← e1, hkey, ih y (noStraddleB_tail hns), countOcc]
    omega

theorem mem_tails_right {u tail : Str} : ∀ w : Str, u ∈ (w ++ tail).tails →
    u.length ≤ tail.length → u ∈ tail.tails := by
  intro w
  induction w with
  | nil => intro hu _; simpa using hu
  | cons c w' ih =>
    intro hu hlen
    rw [List.cons_append, List.tails_cons] at hu
    rcases List.mem_cons.mp hu with rfl | h2
    · simp at hlen
      omega
    · exact ih h2 hlen

theorem noStraddleB_append_right {p w tail : Str} (hlen : p.length ≤ tail.length + 1)
    (ht : noStraddleB p tail = true) : noStraddleB p (w ++ tail) = true := by
  simp only [noStraddleB, List.all_eq_true] at ht ⊢
  intro u hu
  cases u with
  | nil => simp
  | cons c u' =>
    by_cases hul : (c :: u').length < p.length
    · exact ht (c :: u') (mem_tails_right w hu (by omega))
    · have hd : decide ((c :: u').length < p.length) = false := decide_eq_false hul
      rw [hd]
      simp

theorem noStraddleB_of_no_lt {q x : Str} (h : ∀ c ∈ x, c ≠ '<') :
    noStraddleB ('<' :: q) x = true := by
  simp only [noStraddleB, List.all_eq_true]
  intro u hu
  cases u with
  | nil => simp
  | cons c u' =>
    have hcx : c ∈ x := by
      obtain ⟨w, hw⟩ := (List.mem_tails _ _).mp hu
      rw [← hw]
      simp
    have hc : (c == '<') = false := by simpa using h c hcx
    simp [pfx, hc]

theorem countOcc_zero_of_no_lt {q x : Str} (h : ∀ c ∈ x, c ≠ '<') :
    countOcc ('<' :: q) x = 0 := by
  induction x with
  | nil => rfl
  | cons c t ih =>
    have hc : ('<' == c) = false := by
      have := h c (List.mem_cons_self _ _)
      simp only [beq_eq_false_iff_ne]
      exact fun he => this he.symm
    rw [countOcc]
    simp only [pfx, hc, Bool.false_and, Bool.false_eq_true, if_false]
    simpa using ih fun x hx => h x (List.mem_cons_of_mem c hx)

theorem cells_chars {l cell : Str} (hc : cell ∈ cellsOf l) {ch : Char}
    (hch : ch ∈ cell) : ch ∈ l := by
  unfold cellsOf at hc
  have h1 := List.mem_filter.mp hc
  obtain ⟨piece, hpiece, htr⟩ := List.mem_map.mp h1.1
  subst htr
  exact mem_of_mem_splitCh hpiece (mem_of_mem_trim hch)

theorem countOcc_ths_append {p q : Str} (hq : p = '<' :: q)
    (hno : noStraddleB p (S ("<th>")) = true)
    (hncl : noStraddleB p (S ("</th>")) = true) :
    ∀ cs : List Str, (∀ c ∈ cs, ∀ ch ∈ c, ch ≠ '<') → ∀ y : Str,
    countOcc p ((cs.map thCell).flatten ++ y) =
      cs.length * (countOcc p (S ("<th>")) + countOcc p (S ("</th>"))) + countOcc p y := by
  intro cs
  induction cs with
  | nil => intro _ y; simp
  | cons c cs' ih =>
    intro hfree y
    have hplen : 0 < p.length := by rw [hq]; simp
    have hcfree : ∀ ch ∈ c, ch ≠ '<' := hfree c (List.mem_cons_self _ _)
    have e1 : ((c :: cs').map thCell).flatten ++ y =
        S ("<th>") ++ (c ++ (S ("</th>") ++ ((cs'.map thCell).flatten ++ y))) := by
      simp [thCell, List.append_assoc]
    have hnsc : noStraddleB p c = true := by
      rw [hq]
      exact noStraddleB_of_no_lt hcfree
    have hzc : countOcc p c = 0 := by
      rw [hq]
      exact countOcc_zero_of_no_lt hcfree
    rw [e1, countOcc_append _ _ hno]
    rw [countOcc_append c _ hnsc, hzc]
    rw [countOcc_append _ _ hncl]
    rw [ih (fun x hx => hfree x (List.mem_cons_of_mem c hx)) y]
    simp only [List.length_cons]
    ring

theorem countOcc_tds_append {p q : Str} (hq : p = '<' :: q)
    (hno : noStraddleB p (S ("<td>")) = true)
    (hncl : noStraddleB p (S ("</td>")) = true) :
    ∀ cs : List Str, (∀ c ∈ cs, ∀ ch ∈ c, ch ≠ '<') → ∀ y : Str,
    countOcc p ((cs.map tdCell).flatten ++ y) =
      cs.length * (countOcc p (S ("<td>")) + countOcc p (S ("</td>"))) + countOcc p y := by
  intro cs
  induction cs with
  | nil => intro _ y; simp
  | cons c cs' ih =>
    intro hfree y
    have hplen : 0 < p.length := by rw [hq]; simp
    have hcfree : ∀ ch ∈ c, ch ≠ '<' := hfree c (List.mem_cons_self _ _)
    have e1 : ((c :: cs').map tdCell).flatten ++ y =
        S ("<td>") ++ (c ++ (S ("</td>") ++ ((cs'.map tdCell).flatten ++ y))) := by
      simp [tdCell, List.append_assoc]
    have hnsc : noStraddleB p c = true := by
      rw [hq]
      exact noStraddleB_of_no_lt hcfree
    have hzc : countOcc p c = 0 := by
      rw [hq]
      exact countOcc_zero_of_no_lt hcfree
    rw [e1, countOcc_append _ _ hno]
    rw [countOcc_append c _ hnsc, hzc]
    rw [countOcc_append _ _ hncl]
    rw [ih (fun x hx => hfree x (List.mem_cons_of_mem c hx)) y]
    simp only [List.length_cons]
    ring

theorem countOcc_rows_append {p q : Str} (hq : p = '<' :: q)
    (h1 : noStraddleB p (S ("<tr>")) = true)
    (h2 : noStraddleB p (S ("</tr>")) = true)
    (h3 : noStraddleB p (S ("<td>")) = true)
    (h4 : noStraddleB p (S ("</td>")) = true)
    (htd : countOcc p (S ("<td>")) + countOcc p (S ("</td>")) = 0) :
    ∀ ds : List Str, (∀ l ∈ ds, ∀ ch ∈ l, ch ≠ '<') → ∀ y : Str,
    countOcc p ((ds.map trRow).flatten ++ y) =
      (ds.filter (fun l => !(cellsOf l).isEmpty)).length *
        (countOcc p (S ("<tr>")) + countOcc p (S ("</tr>"))) + countOcc p y := by
  intro ds
  induction ds with
  | nil => intro _ y; simp
  | cons l ds' ih =>
    intro hfree y
    have hplen : 0 < p.length := by rw [hq]; simp
    have hlfree : ∀ ch ∈ l, ch ≠ '<' := hfree l (List.mem_cons_self _ _)
    have hcellfree : ∀ c ∈ cellsOf l, ∀ ch ∈ c, ch ≠ '<' :=
      fun c hc ch hch => hlfree ch (cells_chars hc hch)
    have ihr := ih (fun x hx => hfree x (List.mem_cons_of_mem l hx)) y
    cases hcl : cellsOf l with
    | nil =>
      have htr : trRow l = [] := by rw [trRow, hcl]
      rw [List.map_cons, List.flatten_cons, htr, List.nil_append, ihr]
      simp [List.filter_cons, hcl]
    | cons c0 cs0 =>
      have htr : trRow l = S ("<tr>") ++ ((cellsOf l).map tdCell).flatten ++ S ("</tr>") := by
        rw [trRow, hcl]
      have e1 : ((l :: ds').map trRow).flatten ++ y =
          S ("<tr>") ++ (((cellsOf l).map tdCell).flatten ++
            (S ("</tr>") ++ ((ds'.map trRow).flatten ++ y))) := by
        rw [List.map_cons, List.flatten_cons, htr]
        simp [List.append_assoc]
      rw [e1, countOcc_append _ _ h1]
      rw [countOcc_tds_append hq h3 h4 (cellsOf l) hcellfree]
      rw [htd, countOcc_append _ _ h2, ihr]
      simp only [List.filter_cons, hcl, List.isEmpty_cons, Bool.not_false, if_true,
        List.length_cons]
      ring

theorem countOcc_rows_tds_append {p q : Str} (hq : p = '<' :: q)
    (h1 : noStraddleB p (S ("<tr>")) = true)
    (h2 : noStraddleB p (S ("</tr>")) = true)
    (h3 : noStraddleB p (S ("<td>")) = true)
    (h4 : noStraddleB p (S ("</td>")) = true)
    (htr : countOcc p (S ("<tr>")) + countOcc p (S ("</tr>")) = 0) :
    ∀ ds : List Str, (∀ l ∈ ds, ∀ ch ∈ l, ch ≠ '<') → ∀ y : Str,
    countOcc p ((ds.map trRow).flatten ++ y) =
      (ds.map fun l => (cellsOf l).length).sum *
        (countOcc p (S ("<td>")) + countOcc p (S ("</td>"))) + countOcc p y := by
  intro ds
  induction ds with
  | nil => intro _ y; simp
  | cons l ds' ih =>
    intro hfree y
    have hlfree : ∀ ch ∈ l, ch ≠ '<' := hfree l (List.mem_cons_self _ _)
    have hcellfree : ∀ c ∈ cellsOf l, ∀ ch ∈ c, ch ≠ '<' :=
      fun c hc ch hch => hlfree ch (cells_chars hc hch)
    have ihr := ih (fun x hx => hfree x (List.mem_cons_of_mem l hx)) y
    cases hcl : cellsOf l with
    | nil =>
      have htrr : trRow l = [] := by rw [trRow, hcl]
      rw [List.map_cons, List.flatten_cons, htrr, List.nil_append, ihr]
      simp [List.map_cons, List.sum_cons, hcl]
    | cons c0 cs0 =>
      have htrr : trRow l =
          S ("<tr>") ++ ((cellsOf l).map tdCell).flatten ++ S ("</tr>") := by
        rw [trRow, hcl]
      have e1 : ((l :: ds').map trRow).flatten ++ y =
          S ("<tr>") ++ (((cellsOf l).map tdCell).flatten ++
            (S ("</tr>") ++ ((ds'.map trRow).flatten ++ y))) := by
        rw [List.map_cons, List.flatten_cons, htrr]
        simp [List.append_assoc]
      rw [e1, countOcc_append _ _ h1]
      rw [countOcc_tds_append hq h3 h4 (cellsOf l) hcellfree]
      rw [countOcc_append _ _ h2, ihr]
      have htr1 : countOcc p (S ("<tr>")) = 0 := by omega
      have htr2 : countOcc p (S ("</tr>")) = 0 := by omega
      rw [htr1, htr2]
      simp only [List.map_cons, List.sum_cons]
      ring

/-!  ## Claim theorems: concrete evaluations -/

set_option maxRecDepth 100000

/-- Claim C2: `parseMarkdown` is a total function (every input string maps
to an output string; the embedded pipeline sits behind the `try`/`catch`
boundary and never fails), and `parseMarkdown ""` evaluates to the empty
string — the trivial empty paragraph `<p></p>` produced by the wrapping
stage and collapsed by the empty-paragraph cleanup, as the third conjunct
shows. -/
theorem c2_total_and_empty_input :
    (∀ s : Str, ∃ r : Str, parseMarkdown s = r) ∧
    parseMarkdown (S ("")) = S ("") ∧
    rwAll (mAny [(S ("<p></p>"), S (""))]) (S ("<p></p>")) = S ("") :=
  ⟨fun s => ⟨parseMarkdown s, rfl⟩, by decide, by decide⟩

/-- Claim C9: evaluation at the failing input `__text__`.  The code's own
comment announces `Bold (**text** or __text__)` but only the `**` rule is
implemented, so `__text__` is rendered by the italic underscore rule as
`_<em>text</em>_` with no `<strong>`; `**`-bold with the non-greedy
adjacent-span behaviour works as claimed (second conjunct). -/
theorem c9_double_underscore_not_bold :
    parseMarkdown (S ("__text__")) = S ("<p>_<em>text</em>_</p>") ∧
    parseMarkdown (S ("**bold** **also**")) =
      S ("<p><strong>bold</strong> <strong>also</strong></p>") := by
  exact ⟨by decide, by decide⟩

/-- Claim C6 (amended): in the two example renderings of the claim, block
elements separated from the surrounding text by blank lines are not
nested inside `<p>`: the `<h1>` and the table sit outside any paragraph
and the Intro-paragraph / table / Outro-paragraph order is preserved. -/
theorem c6_blocks_outside_p_examples :
    parseMarkdown (S ("# Title\n\nBody text")) = S ("<h1>Title</h1><p>Body text</p>") ∧
    parseMarkdown (S ("Intro\n\n| a | b |\n|---|---|\n| 1 | 2 |\n\nOutro")) =
      S ("<p>Intro</p>") ++
      S ("<table class=\"chat-table\"><thead><tr><th>a</th><th>b</th></tr></thead><tbody><tr><td>1</td><td>2</td></tr></tbody></table>") ++
      S ("<p>Outro</p>") := by
  exact ⟨by decide, by decide⟩

/-- Claim C6 (counterexample): for the input `a\n# T\nb` the rendered
header `<h1>T</h1>` is nested strictly inside a single `<p>…</p>`
paragraph — the cleanup pass only strips paragraph tags immediately
adjacent to block tags, so a block element on a line adjacent to text
remains inside the paragraph, refuting the claim that block-level
elements are *never* nested inside a `<p>` tag. -/
theorem c6_nested_h1_counterexample :
    ∃ v : Str, parseMarkdown (S ("a\n# T\nb")) = S ("<p>") ++ v ++ S ("</p>") ∧
      containsSeq (S ("<h1>")) v = true ∧
      containsSeq (S ("<p>")) v = false ∧
      containsSeq (S ("</p>")) v = false :=
  ⟨S ("a<br><h1>T</h1><br>b"), by decide, by decide, by decide, by decide⟩

/-- Claim C1 (counterexample): an input that carries its own
`<table class="chat-table">…</table>` wrapper is captured by the
table-protection step and restored verbatim, so the `<script>` tag it
contains reaches the output unescaped — refuting the claim that every
`<` originating from the input is escaped. -/
theorem c1_unescaped_script_counterexample :
    containsSeq (S ("<script>"))
      (parseMarkdown (S ("<table class=\"chat-table\"><script>alert(1)</script></table>"))) =
      true := by decide

/-- Claim C5 (counterexample): the marker token of table 0 occurs
literally in the input (the tokens are not collision-free against the
input text), and in the final output the extracted table replaces the
*input's* copy of the token while the internal marker itself leaks into
the output — restoration does not happen at the insertion position. -/
theorem c5_marker_collision_counterexample :
    containsSeq (marker 0) (S ("###TABLE0###\n\n|a|\n|-|\n|b|")) = true ∧
    parseMarkdown (S ("###TABLE0###\n\n|a|\n|-|\n|b|")) =
      S ("<table class=\"chat-table\"><thead><tr><th>a</th></tr></thead><tbody><tr><td>b</td></tr></tbody></table>")
        ++ marker 0 := by
  exact ⟨by decide, by decide⟩

/-- Claim C10 (counterexample): both input-controlled table fragments are
captured by the protection step, but the first fragment — which contains
the literal marker text of the second table — is *not* emitted verbatim:
the final restoration substitutes the second table into the middle of the
first one, refuting the universally-quantified claim. -/
theorem c10_forged_marker_counterexample :
    (protectT (parseTable (S ("<table class=\"chat-table\">###TABLE1###</table>\n<table class=\"chat-table\">x</table>")))).2 =
      [S ("<table class=\"chat-table\">###TABLE1###</table>"),
       S ("<table class=\"chat-table\">x</table>")] ∧
    containsSeq (S ("<table class=\"chat-table\">###TABLE1###</table>"))
      (parseMarkdown (S ("<table class=\"chat-table\">###TABLE1###</table>\n<table class=\"chat-table\">x</table>"))) =
      false := by
  exact ⟨by decide, by decide⟩

/-- Claim C7 (amended): any internal pipeline failure is caught at the
`try`/`catch` boundary and replaced by the original text with `<` and `>`
escaped (ampersands are left alone) wrapped in a single paragraph — no
exception and no partial output ever reaches the caller; `parseMarkdown`
is exactly that boundary around the total pipeline. -/
theorem c7_catch_escapes_angles_only :
    (∀ f : Str → Option Str, ∀ t : Str, f t = none →
      tryRender f t = S ("<p>") ++ escAngles t ++ S ("</p>")) ∧
    (∀ t : Str, parseMarkdown t = tryRender (fun s => some (pipeline s)) t) := by
  constructor
  · intro f t h
    simp [tryRender, h, fallbackRender]
  · intro t
    rfl

/-- Witness for C7's amended theorem: a failing stage on the input `a&b`
produces exactly `<p>a&b</p>`. -/
theorem c7_catch_escapes_angles_only_witness :
    tryRender (fun _ => none) (S ("a&b")) = S ("<p>") ++ escAngles (S ("a&b")) ++ S ("</p>") :=
  c7_catch_escapes_angles_only.1 (fun _ => none) (S ("a&b")) rfl

/-- Claim C7 (counterexample): the `catch` fallback is *not* the
HTML-escaping of the original input — the escaping stage of the pipeline
converts `&` to `&amp;` but the fallback of source line 322 does not, so
for the input `a&b` the degraded output differs from the escaped-and-
wrapped original. -/
theorem c7_amp_unescaped_counterexample :
    ¬ (tryRender (fun _ => none) (S ("a&b")) =
        S ("<p>") ++ escapeHtml (S ("a&b")) ++ S ("</p>")) := by decide

/-- Claim C3: at the head of the scan a maximal run of pipe-containing
lines becomes one rendered table precisely when the run has length at
least 3 and its second trimmed line passes the separator test (first
conjunct, both directions of the iff as the two implications); and a run
of exactly two pipe-containing lines is never a table — both the
line-level scan and the whole `parseTable` pass the text through as plain
text (second conjunct). -/
theorem c3_run_qualification :
    (∀ l : Str, ∀ ls : List Str, hasPipe l = true →
      ((3 ≤ (((l :: ls).takeWhile hasPipe).map trim).length ∧
          isSep ((((l :: ls).takeWhile hasPipe).map trim).getD 1 []) = true →
        ptLines (l :: ls) = renderTable (((l :: ls).takeWhile hasPipe).map trim) ::
          ptLines ((l :: ls).drop ((l :: ls).takeWhile hasPipe).length)) ∧
       (¬ (3 ≤ (((l :: ls).takeWhile hasPipe).map trim).length ∧
          isSep ((((l :: ls).takeWhile hasPipe).map trim).getD 1 []) = true) →
        ptLines (l :: ls) = l :: ptLines ls))) ∧
    (∀ l1 l2 : Str, hasPipe l1 = true → hasPipe l2 = true → '\n' ∉ l1 → '\n' ∉ l2 →
      ptLines [l1, l2] = [l1, l2] ∧
      parseTable (l1 ++ '\n' :: l2) = l1 ++ '\n' :: l2) := by
  constructor
  · intro l ls hp
    exact ⟨fun hq => ptLines_cons_of_table hp hq,
           fun hq => ptLines_cons_of_failed_run hp hq⟩
  · intro l1 l2 h1 h2 hn1 hn2
    have htw : ([l1, l2].takeWhile hasPipe) = [l1, l2] := by
      simp [List.takeWhile_cons, h1, h2]
    have hq1 : ¬ (3 ≤ (([l1, l2].takeWhile hasPipe).map trim).length ∧
        isSep ((([l1, l2].takeWhile hasPipe).map trim).getD 1 []) = true) := by
      rw [htw]
      intro hc
      simp at hc
    have htw2 : ([l2].takeWhile hasPipe) = [l2] := by
      simp [List.takeWhile_cons, h2]
    have hq2 : ¬ (3 ≤ (([l2].takeWhile hasPipe).map trim).length ∧
        isSep ((([l2].takeWhile hasPipe).map trim).getD 1 []) = true) := by
      rw [htw2]
      intro hc
      simp at hc
    have hpt : ptLines [l1, l2] = [l1, l2] := by
      rw [ptLines_cons_of_failed_run h1 hq1, ptLines_cons_of_failed_run h2 hq2]
      rfl
    refine ⟨hpt, ?_⟩
    have hsp : splitCh '\n' (l1 ++ '\n' :: l2) = [l1, l2] := by
      rw [splitCh_append_sep l2 hn1, splitCh_of_not_mem hn2]
    show joinNl (ptLines (splitCh '\n' (l1 ++ '\n' :: l2))) = _
    rw [hsp, hpt]
    simp [joinNl]

/-- Witness for C3: the qualifying three-line run `|a| / |-| / |b|` is
rendered as a table, and the two-line pipe run `x| / |y` passes through
`parseTable` unchanged. -/
theorem c3_run_qualification_witness :
    (hasPipe (S ("|a|")) = true ∧
      ptLines [S ("|a|"), S ("|-|"), S ("|b|")] =
        renderTable ((([S ("|a|"), S ("|-|"), S ("|b|")]).takeWhile hasPipe).map trim) ::
          ptLines (([S ("|a|"), S ("|-|"), S ("|b|")]).drop
            (([S ("|a|"), S ("|-|"), S ("|b|")]).takeWhile hasPipe).length)) ∧
    parseTable (S ("x|") ++ '\n' :: S ("|y")) = S ("x|") ++ '\n' :: S ("|y") :=
  ⟨⟨by decide,
    (c3_run_qualification.1 (S ("|a|")) [S ("|-|"), S ("|b|")] (by decide)).1
      ⟨by decide, by decide⟩⟩,
   (c3_run_qualification.2 (S ("x|")) (S ("|y")) (by decide) (by decide)
      (by decide) (by decide)).2⟩

/-- Claim C4: shape of a rendered table.  For a qualifying run
`header :: separator :: dataRows` (at least one data row, separator line
passing the test, cells containing no `<` of their own so that tag
occurrences are the renderer's), the rendered fragment starts with
`<table class="chat-table">`, contains exactly one `<table` tag, one
`<th>` per non-empty trimmed header cell, one `<tr>` per data row
that yields at least one cell after filtering, plus the single header
row — a data row yielding zero cells produces no `<tr>` — and one `<td>`
per non-empty trimmed cell of the data rows (fifth conjunct: the total
`<td>` count is the sum, over the data rows, of each row's filtered cell
count).  The separator line is discarded: it contributes to none of the
counts. -/
theorem c4_table_shape (hd sep : Str) (ds : List Str)
    (hfree : ∀ l ∈ hd :: sep :: ds, ∀ ch ∈ l, ch ≠ '<')
    (hds : ds ≠ []) (hsep : isSep sep = true) :
    pfx ctOpen (renderTable (hd :: sep :: ds)) = true ∧
    countOcc (S ("<table")) (renderTable (hd :: sep :: ds)) = 1 ∧
    countOcc (S ("<th>")) (renderTable (hd :: sep :: ds)) = (cellsOf hd).length ∧
    countOcc (S ("<tr>")) (renderTable (hd :: sep :: ds)) =
      1 + (ds.filter (fun l => !(cellsOf l).isEmpty)).length ∧
    countOcc (S ("<td>")) (renderTable (hd :: sep :: ds)) =
      (ds.map fun l => (cellsOf l).length).sum := by
  have hhd : ∀ c ∈ cellsOf hd, ∀ ch ∈ c, ch ≠ '<' := fun c hc ch hch =>
    hfree hd (List.mem_cons_self _ _) ch (cells_chars hc hch)
  have hdsf : ∀ l ∈ ds, ∀ ch ∈ l, ch ≠ '<' := fun l hl ch hch =>
    hfree l (List.mem_cons_of_mem _ (List.mem_cons_of_mem _ hl)) ch hch
  have hrt : renderTable (hd :: sep :: ds) =
      S ("<table class=\"chat-table\"><thead><tr>") ++
        (((cellsOf hd).map thCell).flatten ++
          (S ("</tr></thead><tbody>") ++
            ((ds.map trRow).flatten ++ S ("</tbody></table>")))) := by
    show S ("<table class=\"chat-table\"><thead><tr>") ++
        ((cellsOf ((hd :: sep :: ds).headD [])).map thCell).flatten ++
        S ("</tr></thead><tbody>") ++ (((hd :: sep :: ds).drop 2).map trRow).flatten ++
        S ("</tbody></table>") = _
    simp [List.append_assoc]
  have hq1 : S ("<table") = '<' :: S ("table") := by decide
  have hq2 : S ("<th>") = '<' :: S ("th>") := by decide
  have hq3 : S ("<tr>") = '<' :: S ("tr>") := by decide
  have hq4 : S ("<td>") = '<' :: S ("td>") := by decide
  refine ⟨?_, ?_, ?_, ?_, ?_⟩
  · rw [hrt, pfx_append_of_le _ (by decide)]
    decide
  · rw [hrt]
    rw [countOcc_append _ _ (by decide)]
    rw [countOcc_ths_append hq1 (by decide) (by decide) (cellsOf hd) hhd]
    rw [countOcc_append _ _ (by decide)]
    rw [countOcc_rows_append hq1 (by decide) (by decide) (by decide) (by decide)
      (by decide) ds hdsf]
    norm_num [show countOcc (S ("<table")) (S ("<table class=\"chat-table\"><thead><tr>")) = 1
        from by decide,
      show countOcc (S ("<table")) (S ("<th>")) = 0 from by decide,
      show countOcc (S ("<table")) (S ("</th>")) = 0 from by decide,
      show countOcc (S ("<table")) (S ("</tr></thead><tbody>")) = 0 from by decide,
      show countOcc (S ("<table")) (S ("<tr>")) = 0 from by decide,
      show countOcc (S ("<table")) (S ("</tr>")) = 0 from by decide,
      show countOcc (S ("<table")) (S ("</tbody></table>")) = 0 from by decide]
  · rw [hrt]
    rw [countOcc_append _ _ (by decide)]
    rw [countOcc_ths_append hq2 (by decide) (by decide) (cellsOf hd) hhd]
    rw [countOcc_append _ _ (by decide)]
    rw [countOcc_rows_append hq2 (by decide) (by decide) (by decide) (by decide)
      (by decide) ds hdsf]
    norm_num [show countOcc (S ("<th>")) (S ("<table class=\"chat-table\"><thead><tr>")) = 0
        from by decide,
      show countOcc (S ("<th>")) (S ("<th>")) = 1 from by decide,
      show countOcc (S ("<th>")) (S ("</th>")) = 0 from by decide,
      show countOcc (S ("<th>")) (S ("</tr></thead><tbody>")) = 0 from by decide,
      show countOcc (S ("<th>")) (S ("<tr>")) = 0 from by decide,
      show countOcc (S ("<th>")) (S ("</tr>")) = 0 from by decide,
      show countOcc (S ("<th>")) (S ("</tbody></table>")) = 0 from by decide]
  · rw [hrt]
    rw [countOcc_append _ _ (by decide)]
    rw [countOcc_ths_append hq3 (by decide) (by decide) (cellsOf hd) hhd]
    rw [countOcc_append _ _ (by decide)]
    rw [countOcc_rows_append hq3 (by decide) (by decide) (by decide) (by decide)
      (by decide) ds hdsf]
    norm_num [show countOcc (S ("<tr>")) (S ("<table class=\"chat-table\"><thead><tr>")) = 1
        from by decide,
      show countOcc (S ("<tr>")) (S ("<th>")) = 0 from by decide,
      show countOcc (S ("<tr>")) (S ("</th>")) = 0 from by decide,
      show countOcc (S ("<tr>")) (S ("</tr></thead><tbody>")) = 0 from by decide,
      show countOcc (S ("<tr>")) (S ("<tr>")) = 1 from by decide,
      show countOcc (S ("<tr>")) (S ("</tr>")) = 0 from by decide,
      show countOcc (S ("<tr>")) (S ("</tbody></table>")) = 0 from by decide]
  · rw [hrt]
    rw [countOcc_append _ _ (by decide)]
    rw [countOcc_ths_append hq4 (by decide) (by decide) (cellsOf hd) hhd]
    rw [countOcc_append _ _ (by decide)]
    rw [countOcc_rows_tds_append hq4 (by decide) (by decide) (by decide) (by decide)
      (by decide) ds hdsf]
    norm_num [show countOcc (S ("<td>")) (S ("<table class=\"chat-table\"><thead><tr>")) = 0
        from by decide,
      show countOcc (S ("<td>")) (S ("<th>")) = 0 from by decide,
      show countOcc (S ("<td>")) (S ("</th>")) = 0 from by decide,
      show countOcc (S ("<td>")) (S ("</tr></thead><tbody>")) = 0 from by decide,
      show countOcc (S ("<td>")) (S ("<td>")) = 1 from by decide,
      show countOcc (S ("<td>")) (S ("</td>")) = 0 from by decide,
      show countOcc (S ("<td>")) (S ("</tbody></table>")) = 0 from by decide]

/-- Witness for C4: in the run `|a| / |-| / |b| / ||` the data row `||`
yields zero cells, so the table has exactly two `<tr>` rows (header plus
the row for `|b|`), one `<th>`, and one `<td>` (the single cell of
`|b|`; the zero-cell row contributes none). -/
theorem c4_table_shape_witness :
    isSep (S ("|-|")) = true ∧
    countOcc (S ("<th>")) (renderTable [S ("|a|"), S ("|-|"), S ("|b|"), S ("||")]) = 1 ∧
    countOcc (S ("<tr>")) (renderTable [S ("|a|"), S ("|-|"), S ("|b|"), S ("||")]) = 2 ∧
    countOcc (S ("<td>")) (renderTable [S ("|a|"), S ("|-|"), S ("|b|"), S ("||")]) = 1 := by
  have h := c4_table_shape (S ("|a|")) (S ("|-|")) [S ("|b|"), S ("||")]
    (by decide) (by decide) (by decide)
  refine ⟨by decide, ?_, ?_, ?_⟩
  · rw [h.2.2.1]
    decide
  · rw [h.2.2.2.1]
    decide
  · rw [h.2.2.2.2]
    decide

/-- Claim C5 (amended): the protection step substitutes exactly one
placeholder, in place, for each captured table, numbering them
consecutively in insertion order (the `ProtFrame` relation); the
placeholder and marker token families are injective in the index, so
distinct tables always get distinct tokens; and for a marker-free input
holding one genuine markdown table, no placeholder or marker string
survives into the final output.  Collision-freedom against arbitrary
input text does **not** hold (see the counterexample): an input already
containing a token such as `###TABLE0###` makes a marker leak and the
restoration land at the wrong position. -/
theorem c5_placeholder_per_table :
    (∀ s : Str, ProtFrame 0 s (protectT s).1 (protectT s).2) ∧
    (∀ i j : Nat, i ≠ j → marker i ≠ marker j ∧ placeholder i ≠ placeholder j) ∧
    (containsSeq (S ("###TABLE")) (parseMarkdown (S ("X\n\n|a|\n|-|\n|b|\n\nY"))) = false ∧
     containsSeq (S ("TABLE-PLACEHOLDER"))
       (parseMarkdown (S ("X\n\n|a|\n|-|\n|b|\n\nY"))) = false) := by
  refine ⟨protectT_frame, fun i j hij => ⟨?_, ?_⟩, by decide, by decide⟩
  · intro hm
    exact hij (marker_inj hm)
  · intro hm
    exact hij (placeholder_inj hm)

/-- Witness for C5's amended theorem: indices 0 and 1 receive distinct
marker tokens. -/
theorem c5_placeholder_per_table_witness :
    (0 : Nat) ≠ 1 ∧ marker 0 ≠ marker 1 :=
  ⟨by decide, (c5_placeholder_per_table.2.1 0 1 (by decide)).1⟩

/-- Claim C10 (amended): every `<table class="chat-table">…</table>`
fragment of the input is captured by the table-protection step of
`parseMarkdown` — the protection scan decomposes any input into kept
characters and captured fragments, substituting exactly one placeholder
per fragment (`ProtFrame`) — and a captured fragment is emitted verbatim
and unescaped in the final output in the benign case, as the concrete
single-fragment input shows: the fragment bypasses HTML-escaping
entirely.  A fragment containing another table's literal marker text is
altered before emission (see the counterexample), so verbatim emission
holds only for fragments free of marker strings. -/
theorem c10_chat_table_bypass :
    (∀ s : Str, ProtFrame 0 s (protectT s).1 (protectT s).2) ∧
    parseMarkdown (S ("<table class=\"chat-table\">hi</table>")) =
      S ("<table class=\"chat-table\">hi</table>") :=
  ⟨protectT_frame, by decide⟩

/-!  ## The markup-discipline automaton: basic lemmas -/

theorem tagSet_ne : ∀ tg ∈ tagSet, tg ≠ [] := by decide

theorem tagSet_free : tagsFree tagSet = true := by decide

theorem tagSet_no_inner_lt : ∀ tg ∈ tagSet, ∀ c ∈ tg.drop 1, ¬ c = '<' := by decide

theorem mem_drop_one_of_pfx {p : Str} {d : Char} :
    ∀ {a : Str} {y : Str}, pfx p (a ++ d :: y) = true → a ≠ [] →
      a.length < p.length → d ∈ p.drop 1 := by
  induction p with
  | nil =>
    intro a y _ _ hlen
    simp at hlen
  | cons e p' ih =>
    intro a y h ha hlen
    cases a with
    | nil => simp at ha
    | cons c a' =>
      simp only [List.cons_append, pfx, Bool.and_eq_true] at h
      cases a' with
      | nil =>
        cases p' with
        | nil => simp at hlen
        | cons f p'' =>
          simp only [List.nil_append, pfx, Bool.and_eq_true, beq_iff_eq] at h
          simp [← h.2.1]
      | cons c2 a2 =>
        have hd : d ∈ p'.drop 1 := ih h.2 (by simp) (by simp at hlen ⊢; omega)
        simp only [List.drop_one] at hd ⊢
        exact List.mem_of_mem_tail hd

theorem pfx_trans_le {a : Str} : ∀ {b s : Str}, pfx a s = true → pfx b s = true →
    a.length ≤ b.length → pfx a b = true := by
  induction a with
  | nil => intro b s _ _ _; rfl
  | cons x a' ih =>
    intro b s ha hb hlen
    cases s with
    | nil => simp [pfx] at ha
    | cons c s' =>
      cases b with
      | nil => simp at hlen
      | cons y b' =>
        simp only [pfx, Bool.and_eq_true, beq_iff_eq] at ha hb ⊢
        refine ⟨by rw [ha.1, hb.1], ih ha.2 hb.2 (by simpa using hlen)⟩

theorem findTag_mem_pfx {ts : List Str} {s tg : Str} (h : findTag ts s = some tg) :
    tg ∈ ts ∧ pfx tg s = true := by
  unfold findTag at h
  have hps := List.find?_some h
  exact ⟨List.mem_of_find?_eq_some h, hps⟩

theorem findTag_unique {ts : List Str} (hfree : tagsFree ts = true) {s tg : Str}
    (htg : tg ∈ ts) (hp : pfx tg s = true) : findTag ts s = some tg := by
  cases hft : findTag ts s with
  | none =>
    unfold findTag at hft
    have hnone := List.find?_eq_none.mp hft tg htg
    simp [hp] at hnone
  | some tg' =>
    obtain ⟨htg', hp'⟩ := findTag_mem_pfx hft
    simp only [tagsFree, List.all_eq_true] at hfree
    rcases Nat.le_total tg.length tg'.length with hle | hle
    · have hab : pfx tg tg' = true := pfx_trans_le hp hp' hle
      have h2 := hfree tg htg tg' htg'
      rw [hab] at h2
      simp only [Bool.not_true, Bool.or_false, beq_iff_eq] at h2
      subst h2
      rfl
    · have hab : pfx tg' tg = true := pfx_trans_le hp' hp hle
      have h2 := hfree tg' htg' tg htg
      rw [hab] at h2
      simp only [Bool.not_true, Bool.or_false, beq_iff_eq] at h2
      subst h2
      rfl

theorem tagsOnlyGo_fuel {ts : List Str} (hne : ∀ tg ∈ ts, tg ≠ []) :
    ∀ f1 : Nat, ∀ f2 : Nat, ∀ s : Str, s.length ≤ f1 → s.length ≤ f2 →
      tagsOnlyGo ts f1 s = tagsOnlyGo ts f2 s := by
  intro f1
  induction f1 with
  | zero =>
    intro f2 s h1 _
    have : s = [] := List.length_eq_zero.mp (Nat.le_zero.mp h1)
    subst this
    cases f2 <;> rfl
  | succ f ih =>
    intro f2 s h1 h2
    cases s with
    | nil => cases f2 <;> rfl
    | cons c t =>
      cases f2 with
      | zero => simp at h2
      | succ g =>
        rw [tagsOnlyGo, tagsOnlyGo]
        by_cases hc : c == '<'
        · simp only [hc, if_true]
          cases hft : findTag ts (c :: t) with
          | none => rfl
          | some tg =>
            obtain ⟨hmem, hp⟩ := findTag_mem_pfx hft
            have hlen1 : 1 ≤ tg.length := by
              cases htg : tg with
              | nil => exact absurd htg (hne tg hmem)
              | cons a b => simp
            have hdl : ((c :: t).drop tg.length).length ≤ f := by
              rw [List.length_drop]
              simp only [List.length_cons] at h1 ⊢
              omega
            have hdl2 : ((c :: t).drop tg.length).length ≤ g := by
              rw [List.length_drop]
              simp only [List.length_cons] at h2 ⊢
              omega
            exact ih g _ hdl hdl2
        · simp only [hc, Bool.false_eq_true, if_false]
          by_cases hgt : c == '>'
          · simp [hgt]
          · simp only [hgt, Bool.false_eq_true, if_false]
            exact ih g t (by simp at h1; omega) (by simp at h2; omega)

theorem tagsOnly_cons {ts : List Str} (hne : ∀ tg ∈ ts, tg ≠ []) (c : Char) (t : Str) :
    tagsOnly ts (c :: t) =
      (if c == '<' then
        match findTag ts (c :: t) with
        | some tg => tagsOnly ts ((c :: t).drop tg.length)
        | none => false
      else if c == '>' then false
      else tagsOnly ts t) := by
  show tagsOnlyGo ts (t.length + 1) (c :: t) = _
  rw [tagsOnlyGo]
  by_cases hc : c == '<'
  · simp only [hc, if_true]
    cases hft : findTag ts (c :: t) with
    | none => rfl
    | some tg =>
      obtain ⟨hmem, hp⟩ := findTag_mem_pfx hft
      have hlen1 : 1 ≤ tg.length := by
        cases htg : tg with
        | nil => exact absurd htg (hne tg hmem)
        | cons a b => simp
      refine tagsOnlyGo_fuel hne t.length _ _ ?_ (Nat.le_refl _)
      rw [List.length_drop]
      simp only [List.length_cons]
      omega
  · simp only [hc, Bool.false_eq_true, if_false]
    by_cases hgt : c == '>'
    · simp [hgt]
    · simp only [hgt, Bool.false_eq_true, if_false]
      rfl

theorem pfx_refl_append (a z : Str) : pfx a (a ++ z) = true := by
  induction a with
  | nil => rfl
  | cons c a' ih => simpa [pfx] using ih

theorem tagSet_headD : ∀ tg ∈ tagSet, tg.headD ' ' = '<' := by decide

theorem tagSet_cons_lt {tg : Str} (h : tg ∈ tagSet) : ∃ r, tg = '<' :: r := by
  have h1 := tagSet_ne tg h
  have h2 := tagSet_headD tg h
  cases tg with
  | nil => exact absurd rfl h1
  | cons c r =>
    simp only [List.headD_cons] at h2
    exact ⟨r, by rw [h2]⟩

theorem tagsOnly_nil (ts : List Str) : tagsOnly ts [] = true := rfl

theorem tagsOnly_cons_ord {ts : List Str} (hne : ∀ tg ∈ ts, tg ≠ []) {c : Char}
    (hc1 : ¬ c = '<') (hc2 : ¬ c = '>') (t : Str) :
    tagsOnly ts (c :: t) = tagsOnly ts t := by
  rw [tagsOnly_cons hne]
  simp [hc1, hc2]

theorem tagsOnly_ord_str {ts : List Str} (hne : ∀ tg ∈ ts, tg ≠ []) :
    ∀ {x : Str}, (∀ c ∈ x, ¬ c = '<' ∧ ¬ c = '>') → tagsOnly ts x = true := by
  intro x
  induction x with
  | nil => intro _; rfl
  | cons c t ih =>
    intro h
    have hc := h c (List.mem_cons_self _ _)
    rw [tagsOnly_cons_ord hne hc.1 hc.2]
    exact ih fun d hd => h d (List.mem_cons_of_mem c hd)

theorem tagsOnly_append_tag {ts : List Str} (hne : ∀ tg ∈ ts, tg ≠ [])
    (hfree : tagsFree ts = true) (hhead : ∀ tg ∈ ts, tg.headD ' ' = '<')
    {tg : Str} (htg : tg ∈ ts) (z : Str) :
    tagsOnly ts (tg ++ z) = tagsOnly ts z := by
  obtain ⟨r, hr⟩ : ∃ r, tg = '<' :: r := by
    have h1 := hne tg htg
    have h2 := hhead tg htg
    cases tg with
    | nil => exact absurd rfl h1
    | cons c r =>
      simp only [List.headD_cons] at h2
      exact ⟨r, by rw [h2]⟩
  have hp : pfx tg (tg ++ z) = true := pfx_refl_append tg z
  have hu : findTag ts (tg ++ z) = some tg := findTag_unique hfree htg hp
  have he : tg ++ z = '<' :: (r ++ z) := by rw [hr]; rfl
  rw [he] at hu ⊢
  rw [tagsOnly_cons hne]
  simp only [beq_self_eq_true, if_true, hu]
  have hd : ('<' :: (r ++ z)).drop tg.length = z := by
    rw [← he, List.drop_left]
  rw [hd]

theorem tagsOnly_single_tag {ts : List Str} (hne : ∀ tg ∈ ts, tg ≠ [])
    (hfree : tagsFree ts = true) (hhead : ∀ tg ∈ ts, tg.headD ' ' = '<')
    {tg : Str} (htg : tg ∈ ts) : tagsOnly ts tg = true := by
  have h := tagsOnly_append_tag hne hfree hhead htg []
  rw [List.append_nil] at h
  rw [h]
  rfl

theorem TagText_cases {ts : List Str} {x : Str} (h : TagText ts x) :
    x = [] ∨
    (∃ c t, x = c :: t ∧ ¬ c = '<' ∧ ¬ c = '>' ∧ TagText ts t) ∨
    (∃ tg z, x = tg ++ z ∧ tg ∈ ts ∧ TagText ts z) := by
  cases h with
  | nil => exact Or.inl rfl
  | ord c s h1 h2 h3 => exact Or.inr (Or.inl ⟨c, s, rfl, h1, h2, h3⟩)
  | tag tg s h1 h2 => exact Or.inr (Or.inr ⟨tg, s, rfl, h1, h2⟩)

theorem TagText_append {ts : List Str} {a b : Str} (ha : TagText ts a)
    (hb : TagText ts b) : TagText ts (a ++ b) := by
  induction ha with
  | nil => simpa using hb
  | ord c s h1 h2 _ ih => exact TagText.ord c (s ++ b) h1 h2 ih
  | tag tg s h1 _ ih =>
    rw [List.append_assoc]
    exact TagText.tag tg (s ++ b) h1 ih

theorem TagText_of_ord {ts : List Str} :
    ∀ {x : Str}, (∀ c ∈ x, ¬ c = '<' ∧ ¬ c = '>') → TagText ts x := by
  intro x
  induction x with
  | nil => intro _; exact TagText.nil
  | cons c t ih =>
    intro h
    have hc := h c (List.mem_cons_self _ _)
    exact TagText.ord c t hc.1 hc.2 (ih fun d hd => h d (List.mem_cons_of_mem c hd))

theorem TagText_of_angleFree {x : Str} (h : angleFreeB x = true) :
    TagText tagSet x := by
  refine TagText_of_ord fun c hc => ?_
  simp only [angleFreeB, List.all_eq_true] at h
  have := h c hc
  simp only [Bool.not_eq_eq_eq_not, Bool.not_true, Bool.or_eq_false_iff,
    beq_eq_false_iff_ne] at this
  exact ⟨this.1, this.2⟩

theorem TagText_cons_inv {c : Char} {t : Str} (h : TagText tagSet (c :: t))
    (hc : ¬ c = '<') : ¬ c = '>' ∧ TagText tagSet t := by
  rcases TagText_cases h with heq | ⟨c', t', heq, h1, h2, h3⟩ | ⟨tg, z, heq, htg, hz⟩
  · exact absurd heq (by simp)
  · injection heq with h4 h5
    subst h4
    subst h5
    exact ⟨h2, h3⟩
  · obtain ⟨r, hr⟩ := tagSet_cons_lt htg
    subst hr
    injection heq with h4 h5
    exact absurd h4 hc

theorem TagText_drop_of_all_ord :
    ∀ (n : Nat) {x : Str}, TagText tagSet x → (∀ c ∈ x.take n, ¬ c = '<') →
      TagText tagSet (x.drop n) := by
  intro n
  induction n with
  | zero => intro x h _; simpa using h
  | succ n ih =>
    intro x h hc
    cases x with
    | nil => exact TagText.nil
    | cons c t =>
      have hc0 : ¬ c = '<' := hc c (by simp)
      have ht := (TagText_cons_inv h hc0).2
      exact ih ht fun d hd => hc d (by simpa using Or.inr hd)

theorem append_eq_cons_split {tg s a b : Str} {d : Char} (h : tg ++ s = a ++ d :: b) :
    (∃ a2, a = tg ++ a2 ∧ s = a2 ++ d :: b) ∨ (∃ r, tg = a ++ d :: r ∧ b = r ++ s) := by
  induction tg generalizing a with
  | nil =>
    simp only [List.nil_append] at h
    exact Or.inl ⟨a, by simp, h⟩
  | cons c tg' ih =>
    cases a with
    | nil =>
      simp only [List.cons_append, List.nil_append] at h
      injection h with h1 h2
      subst h1
      exact Or.inr ⟨tg', by simp, h2.symm⟩
    | cons a0 a' =>
      simp only [List.cons_append] at h
      injection h with h1 h2
      subst h1
      rcases ih h2 with ⟨a2, ha, hs⟩ | ⟨r, htg, hb⟩
      · exact Or.inl ⟨a2, by rw [ha]; rfl, hs⟩
      · exact Or.inr ⟨r, by rw [htg]; rfl, hb⟩

theorem TagText_split_at_ord {d : Char} (hd : ∀ tg ∈ tagSet, d ∉ tg) :
    ∀ {x : Str}, TagText tagSet x → ∀ {a b : Str}, x = a ++ d :: b →
      TagText tagSet a ∧ TagText tagSet b := by
  intro x h
  induction h with
  | nil =>
    intro a b hx
    exact absurd hx.symm (by simp)
  | ord c s h1 h2 h3 ih =>
    intro a b hx
    cases a with
    | nil =>
      simp only [List.nil_append] at hx
      injection hx with h4 h5
      exact ⟨TagText.nil, h5 ▸ h3⟩
    | cons a0 a' =>
      simp only [List.cons_append] at hx
      injection hx with h4 h5
      obtain ⟨ha, hb⟩ := ih h5
      subst h4
      exact ⟨TagText.ord _ _ h1 h2 ha, hb⟩
  | tag tg s htg hs ih =>
    intro a b hx
    rcases append_eq_cons_split hx with ⟨a2, ha, hs2⟩ | ⟨r, htgeq, hb⟩
    · obtain ⟨h5, h6⟩ := ih hs2
      subst ha
      exact ⟨TagText.tag _ _ htg h5, h6⟩
    · have hdm : d ∈ tg := by
        rw [htgeq]
        exact List.mem_append_right a (List.mem_cons_self d r)
      exact absurd hdm (hd tg htg)

theorem TagText_split_at_lt :
    ∀ {x : Str}, TagText tagSet x → ∀ {a b : Str}, x = a ++ '<' :: b →
      TagText tagSet a ∧ TagText tagSet ('<' :: b) := by
  intro x h
  induction h with
  | nil =>
    intro a b hx
    exact absurd hx.symm (by simp)
  | ord c s h1 h2 h3 ih =>
    intro a b hx
    cases a with
    | nil =>
      simp only [List.nil_append] at hx
      injection hx with h4 h5
      exact absurd h4 h1
    | cons a0 a' =>
      simp only [List.cons_append] at hx
      injection hx with h4 h5
      obtain ⟨ha, hb⟩ := ih h5
      subst h4
      exact ⟨TagText.ord _ _ h1 h2 ha, hb⟩
  | tag tg s htg hs ih =>
    intro a b hx
    rcases append_eq_cons_split hx with ⟨a2, ha, hs2⟩ | ⟨r, htgeq, hb⟩
    · obtain ⟨h5, h6⟩ := ih hs2
      subst ha
      exact ⟨TagText.tag _ _ htg h5, h6⟩
    · cases a with
      | nil =>
        refine ⟨TagText.nil, ?_⟩
        have h7 : '<' :: b = tg ++ s := by
          simp only [List.nil_append] at htgeq
          rw [htgeq, hb]
          rfl
        rw [h7]
        exact TagText.tag _ _ htg hs
      | cons a0 a' =>
        have hin : '<' ∈ tg.drop 1 := by
          rw [htgeq]
          simp
        exact absurd rfl (tagSet_no_inner_lt tg htg '<' hin)

theorem TagText_pfx_tag {s tg : Str} (h : TagText tagSet s) (htg : tg ∈ tagSet)
    (hp : pfx tg s = true) : TagText tagSet (s.drop tg.length) := by
  rcases TagText_cases h with heq | ⟨c, t, heq, hc1, hc2, ht⟩ | ⟨tg', z, heq, htg', hz⟩
  · subst heq
    obtain ⟨r, hr⟩ := tagSet_cons_lt htg
    subst hr
    simp [pfx] at hp
  · subst heq
    obtain ⟨r, hr⟩ := tagSet_cons_lt htg
    subst hr
    simp only [pfx, Bool.and_eq_true, beq_iff_eq] at hp
    exact absurd hp.1.symm hc1
  · subst heq
    have hp' : pfx tg' (tg' ++ z) = true := pfx_refl_append _ _
    have h1 := findTag_unique tagSet_free htg hp
    have h2 := findTag_unique tagSet_free htg' hp'
    rw [h1] at h2
    injection h2 with h3
    subst h3
    rw [List.drop_left]
    exact hz

theorem TagText_tagsOnly {x : Str} (h : TagText tagSet x) :
    tagsOnly tagSet x = true := by
  induction h with
  | nil => rfl
  | ord c s h1 h2 _ ih =>
    rw [tagsOnly_cons_ord tagSet_ne h1 h2]
    exact ih
  | tag tg s htg _ ih =>
    rw [tagsOnly_append_tag tagSet_ne tagSet_free tagSet_headD htg]
    exact ih

theorem pfx_split_left {u v s : Str} (h : pfx (u ++ v) s = true) : pfx u s = true := by
  induction u generalizing s with
  | nil => rfl
  | cons c u' ih =>
    cases s with
    | nil => simp [pfx] at h
    | cons b t =>
      simp only [List.cons_append, pfx, Bool.and_eq_true] at h ⊢
      exact ⟨h.1, ih h.2⟩

theorem pfx_append_drop {u v s : Str} (h : pfx (u ++ v) s = true) :
    pfx v (s.drop u.length) = true := by
  induction u generalizing s with
  | nil => simpa using h
  | cons c u' ih =>
    cases s with
    | nil => simp [pfx] at h
    | cons b t =>
      simp only [List.cons_append, pfx, Bool.and_eq_true] at h
      simpa using ih h.2

theorem pfx_take {p s : Str} (h : pfx p s = true) : s.take p.length = p := by
  have h2 := pfx_eq_append h
  rw [h2]
  exact List.take_left _ _

theorem pfx_cons_ne {d e : Char} (h : ¬ d = e) (p s : Str) :
    pfx (d :: p) (e :: s) = false := by
  simp [pfx, h]

theorem findSeq_some_le {p s : Str} {k : Nat} (hp : p ≠ []) (h : findSeq p s = some k) :
    k + p.length ≤ s.length := by
  have h1 := findSeq_some_pfx h
  have h2 := pfx_length_le h1
  rw [List.length_drop] at h2
  have h3 : 1 ≤ p.length := List.length_pos.mpr hp
  omega

theorem split3_of_findSeq {p s : Str} {k : Nat} (h : findSeq p s = some k) :
    s = s.take k ++ p ++ s.drop (k + p.length) := by
  have h1 := findSeq_some_pfx h
  have h2 := pfx_eq_append h1
  rw [List.drop_drop] at h2
  calc s = s.take k ++ s.drop k := (List.take_append_drop k s).symm
    _ = s.take k ++ (p ++ s.drop (k + p.length)) := by rw [← h2]
    _ = s.take k ++ p ++ s.drop (k + p.length) := by rw [List.append_assoc]

theorem TagText_tag1 {tg : Str} (h : tg ∈ tagSet) : TagText tagSet tg := by
  simpa using TagText.tag tg [] h TagText.nil

theorem TagText_split_findSeq_ord {d : Char} (hd : ∀ tg ∈ tagSet, d ∉ tg)
    {s : Str} {k : Nat} (h : TagText tagSet s) (hf : findSeq [d] s = some k) :
    TagText tagSet (s.take k) ∧ TagText tagSet (s.drop (k + 1)) := by
  have h3 := split3_of_findSeq hf
  have h4 : s = s.take k ++ d :: s.drop (k + 1) := by simpa using h3
  exact TagText_split_at_ord hd h h4

theorem TagText_split_findSeq_tag {p r : Str} {k : Nat} (htg : p ∈ tagSet)
    (h : TagText tagSet r) (hf : findSeq p r = some k) :
    TagText tagSet (r.take k) ∧ TagText tagSet (r.drop (k + p.length)) := by
  obtain ⟨q, hq⟩ := tagSet_cons_lt htg
  have h1 := findSeq_some_pfx hf
  have hsplit : r = r.take k ++ r.drop k := (List.take_append_drop k r).symm
  cases hdk : r.drop k with
  | nil =>
    rw [hdk, hq] at h1
    simp [pfx] at h1
  | cons c b =>
    have hc : c = '<' := by
      rw [hq, hdk] at h1
      simp only [pfx, Bool.and_eq_true, beq_iff_eq] at h1
      exact h1.1.symm
    subst hc
    rw [hdk] at hsplit
    obtain ⟨h5, h6⟩ := TagText_split_at_lt h hsplit
    refine ⟨h5, ?_⟩
    have h7 : TagText tagSet (r.drop k) := by rw [hdk]; exact h6
    have h8 := TagText_pfx_tag h7 htg h1
    rw [List.drop_drop] at h8
    exact h8

theorem pfx_mid_false {tg : Str} (htg : tg ∈ tagSet) {i : Nat} (h0 : 0 < i)
    (hi : i < tg.length) {d : Char} (hne : ∀ c ∈ tg.drop 1, ¬ c = d) :
    ∀ p z : Str, pfx (d :: p) (tg.drop i ++ z) = false := by
  intro p z
  obtain ⟨c0, tl, rfl⟩ : ∃ c0 tl, tg = c0 :: tl := by
    cases tg with
    | nil => simp at hi
    | cons c0 tl => exact ⟨c0, tl, rfl⟩
  have hdrop : (c0 :: tl).drop i = tl.drop (i - 1) := by
    cases i with
    | zero => omega
    | succ j => simp
  rw [hdrop]
  cases hdk : tl.drop (i - 1) with
  | nil =>
    have hlen := congrArg List.length hdk
    simp only [List.length_drop, List.length_nil] at hlen
    simp only [List.length_cons] at hi
    omega
  | cons e r =>
    rw [List.cons_append]
    have hmem : e ∈ tl := List.mem_of_mem_drop (hdk ▸ List.mem_cons_self e r)
    have h1 : ¬ e = d := hne e (by simpa using hmem)
    exact pfx_cons_ne (fun hh => h1 hh.symm) p (r ++ z)

theorem mid_of_guard {m : Str → Option (Str × Str)} {d : Char} {p : Str}
    (hguard : ∀ s : Str, pfx (d :: p) s = false → m s = none)
    (hne : ∀ tg ∈ tagSet, ∀ c ∈ tg.drop 1, ¬ c = d) :
    ∀ tg ∈ tagSet, ∀ i : Nat, 0 < i → i < tg.length → ∀ z : Str, TagText tagSet z →
      m (tg.drop i ++ z) = none := by
  intro tg htg i h0 hi z _
  exact hguard _ (pfx_mid_false htg h0 hi (hne tg htg) p z)

/-!  ## Stage lemmas: the code, inline-code, bold and italic passes -/

theorem mCode_prog : ∀ s out rest : Str, mCode s = some (out, rest) →
    rest.length < s.length := by
  intro s out rest h
  by_cases hp : pfx (S ("```")) s = true
  · cases hf : findSeq (S ("```")) (s.drop 3) with
    | none => simp [mCode, hp, hf] at h
    | some k =>
      simp only [mCode, hp, if_true, hf, Option.some.injEq, Prod.mk.injEq] at h
      have hl := pfx_length_le hp
      have h3 : (S ("```")).length = 3 := by decide
      rw [h3] at hl
      rw [← h.2]
      simp only [List.length_drop]
      omega
  · simp [mCode, hp] at h

theorem mCode_bound : ∀ s : Str, TagText tagSet s → ∀ out rest : Str,
    mCode s = some (out, rest) → TagText tagSet out ∧ TagText tagSet rest := by
  intro s hs out rest h
  by_cases hp : pfx (S ("```")) s = true
  · cases hf : findSeq (S ("```")) (s.drop 3) with
    | none => simp [mCode, hp, hf] at h
    | some k =>
      simp only [mCode, hp, if_true, hf, Option.some.injEq, Prod.mk.injEq] at h
      obtain ⟨hout, hrest⟩ := h
      have htake : s.take 3 = S ("```") := by
        have h1 := pfx_take hp
        have h3 : (S ("```")).length = 3 := by decide
        rw [h3] at h1
        exact h1
      have hd3 : TagText tagSet (s.drop 3) := by
        refine TagText_drop_of_all_ord 3 hs ?_
        rw [htake]
        decide
      have hsplit : s.drop 3 = (s.drop 3).take k ++ btCh ::
          (btCh :: btCh :: (s.drop 3).drop (k + 3)) := by
        have h5 := split3_of_findSeq hf
        have h6 : (S ("```")).length = 3 := by decide
        rw [h6] at h5
        have h7 : S ("```") = [btCh, btCh, btCh] := by decide
        rw [h7] at h5
        rw [List.append_assoc] at h5
        simpa using h5
      obtain ⟨hA, hB⟩ := TagText_split_at_ord (by decide) hd3 hsplit
      have h9 := (TagText_cons_inv hB (by decide)).2
      have h10 := (TagText_cons_inv h9 (by decide)).2
      constructor
      · rw [← hout]
        have e1 : S ("<pre><code>") = S ("<pre>") ++ S ("<code>") := by decide
        have e2 : S ("</code></pre>") = S ("</code>") ++ S ("</pre>") := by decide
        rw [e1, e2]
        exact TagText_append
          (TagText_append (TagText_append (TagText_tag1 (by decide)) (TagText_tag1 (by decide))) hA)
          (TagText_append (TagText_tag1 (by decide)) (TagText_tag1 (by decide)))
      · rw [← hrest]
        exact h10
  · simp [mCode, hp] at h

theorem mCode_mid : ∀ tg ∈ tagSet, ∀ i : Nat, 0 < i → i < tg.length → ∀ z : Str,
    TagText tagSet z → mCode (tg.drop i ++ z) = none := by
  have hguard : ∀ s : Str, pfx (btCh :: S ("``")) s = false → mCode s = none := by
    intro s hp
    have h7 : pfx (S ("```")) s = false := by
      have he : S ("```") = btCh :: S ("``") := by decide
      rw [he]
      exact hp
    simp [mCode, h7]
  exact mid_of_guard hguard (by decide)

theorem mInline_prog : ∀ s out rest : Str, mInline s = some (out, rest) →
    rest.length < s.length := by
  intro s out rest h
  by_cases hp : pfx (S ("`")) s = true
  · cases hf : findSeq (S ("`")) (s.drop 1) with
    | none => simp [mInline, hp, hf, -List.drop_one, -List.drop_drop] at h
    | some k =>
      by_cases hk : 1 ≤ k
      · simp only [mInline, hp, if_true, hf, hk, Option.some.injEq, Prod.mk.injEq] at h
        have hl := pfx_length_le hp
        have h3 : (S ("`")).length = 1 := by decide
        rw [h3] at hl
        rw [← h.2]
        simp only [List.length_drop]
        omega
      · simp [mInline, hp, hf, hk, -List.drop_one, -List.drop_drop] at h
  · simp [mInline, hp] at h

theorem mInline_bound : ∀ s : Str, TagText tagSet s → ∀ out rest : Str,
    mInline s = some (out, rest) → TagText tagSet out ∧ TagText tagSet rest := by
  intro s hs out rest h
  by_cases hp : pfx (S ("`")) s = true
  · cases hf : findSeq (S ("`")) (s.drop 1) with
    | none => simp [mInline, hp, hf, -List.drop_one, -List.drop_drop] at h
    | some k =>
      by_cases hk : 1 ≤ k
      · simp only [mInline, hp, if_true, hf, hk, Option.some.injEq, Prod.mk.injEq] at h
        obtain ⟨hout, hrest⟩ := h
        have htake : s.take 1 = S ("`") := by
          have h1 := pfx_take hp
          have h3 : (S ("`")).length = 1 := by decide
          rw [h3] at h1
          exact h1
        have hd1 : TagText tagSet (s.drop 1) := by
          refine TagText_drop_of_all_ord 1 hs ?_
          rw [htake]
          decide
        have hf2 : findSeq [btCh] (s.drop 1) = some k := by
          have he : S ("`") = [btCh] := by decide
          rw [← he]
          exact hf
        obtain ⟨hA, hB⟩ := TagText_split_findSeq_ord (by decide) hd1 hf2
        constructor
        · rw [← hout]
          exact TagText_append (TagText_append (TagText_tag1 (by decide)) hA)
            (TagText_tag1 (by decide))
        · rw [← hrest]
          exact hB
      · simp [mInline, hp, hf, hk, -List.drop_one, -List.drop_drop] at h
  · simp [mInline, hp] at h

theorem mInline_mid : ∀ tg ∈ tagSet, ∀ i : Nat, 0 < i → i < tg.length → ∀ z : Str,
    TagText tagSet z → mInline (tg.drop i ++ z) = none := by
  have hguard : ∀ s : Str, pfx (btCh :: ([] : Str)) s = false → mInline s = none := by
    intro s hp
    have h7 : pfx (S ("`")) s = false := by
      have he : S ("`") = btCh :: ([] : Str) := by decide
      rw [he]
      exact hp
    simp [mInline, h7]
  exact mid_of_guard hguard (by decide)

theorem mBold_prog : ∀ s out rest : Str, mBold s = some (out, rest) →
    rest.length < s.length := by
  intro s out rest h
  by_cases hp : pfx (S ("**")) s = true
  · cases hf : findSeq (S ("*")) (s.drop 2) with
    | none => simp [mBold, hp, hf, -List.drop_one, -List.drop_drop] at h
    | some j =>
      by_cases hj : (1 ≤ j && pfx (S ("**")) ((s.drop 2).drop j)) = true
      · simp only [mBold, hp, if_true, hf, hj, Option.some.injEq, Prod.mk.injEq] at h
        have hl := pfx_length_le hp
        have h3 : (S ("**")).length = 2 := by decide
        rw [h3] at hl
        rw [← h.2]
        simp only [List.length_drop]
        omega
      · simp [mBold, hp, hf, hj, -List.drop_one, -List.drop_drop] at h
  · simp [mBold, hp] at h

theorem mBold_bound : ∀ s : Str, TagText tagSet s → ∀ out rest : Str,
    mBold s = some (out, rest) → TagText tagSet out ∧ TagText tagSet rest := by
  intro s hs out rest h
  by_cases hp : pfx (S ("**")) s = true
  · cases hf : findSeq (S ("*")) (s.drop 2) with
    | none => simp [mBold, hp, hf, -List.drop_one, -List.drop_drop] at h
    | some j =>
      by_cases hj : (1 ≤ j && pfx (S ("**")) ((s.drop 2).drop j)) = true
      · simp only [mBold, hp, if_true, hf, hj, Option.some.injEq, Prod.mk.injEq] at h
        obtain ⟨hout, hrest⟩ := h
        have htake : s.take 2 = S ("**") := by
          have h1 := pfx_take hp
          have h3 : (S ("**")).length = 2 := by decide
          rw [h3] at h1
          exact h1
        have hd2 : TagText tagSet (s.drop 2) := by
          refine TagText_drop_of_all_ord 2 hs ?_
          rw [htake]
          decide
        have hf2 : findSeq ['*'] (s.drop 2) = some j := by
          have he : S ("*") = ['*'] := by decide
          rw [← he]
          exact hf
        have hj2 : pfx (S ("**")) ((s.drop 2).drop j) = true := by
          simp only [Bool.and_eq_true] at hj
          exact hj.2
        generalize htt : s.drop 2 = t at hd2 hf2 hj2 hout hrest
        obtain ⟨hA, hB⟩ := TagText_split_findSeq_ord (by decide) hd2 hf2
        have h4 : t.drop j = '*' :: '*' :: t.drop (j + 2) := by
          have h5 := pfx_eq_append hj2
          rw [show (S ("**")).length = 2 from by decide, List.drop_drop] at h5
          rw [show S ("**") = ['*', '*'] from by decide] at h5
          simpa using h5
        have hsplit : t.drop (j + 1) = '*' :: t.drop (j + 2) := by
          have h7 : t.drop (j + 1) = (t.drop j).drop 1 := by rw [List.drop_drop]
          rw [h7, h4]
          rfl
        rw [hsplit] at hB
        have hC := (TagText_cons_inv hB (by decide)).2
        constructor
        · rw [← hout]
          exact TagText_append (TagText_append (TagText_tag1 (by decide)) hA)
            (TagText_tag1 (by decide))
        · rw [← hrest]
          exact hC
      · simp [mBold, hp, hf, hj, -List.drop_one, -List.drop_drop] at h
  · simp [mBold, hp] at h

theorem mBold_mid : ∀ tg ∈ tagSet, ∀ i : Nat, 0 < i → i < tg.length → ∀ z : Str,
    TagText tagSet z → mBold (tg.drop i ++ z) = none := by
  have hguard : ∀ s : Str, pfx ('*' :: S ("*")) s = false → mBold s = none := by
    intro s hp
    have h7 : pfx (S ("**")) s = false := by
      have he : S ("**") = '*' :: S ("*") := by decide
      rw [he]
      exact hp
    simp [mBold, h7]
  exact mid_of_guard hguard (by decide)

theorem mEmph_prog (d : Str) : ∀ s out rest : Str, mEmph d s = some (out, rest) →
    rest.length < s.length := by
  intro s out rest h
  by_cases hp : pfx d s = true
  · cases hf : findSeq d (s.drop 1) with
    | none => simp [mEmph, hp, hf, -List.drop_one, -List.drop_drop] at h
    | some j =>
      by_cases hj : 1 ≤ j
      · simp only [mEmph, hp, if_true, hf, hj, Option.some.injEq, Prod.mk.injEq] at h
        have h1 : 1 ≤ s.length := by
          cases d with
          | nil =>
            exfalso
            have h0 : findSeq ([] : Str) (s.drop 1) = some 0 := by
              cases hsy : s.drop 1 <;> simp [findSeq, pfx]
            rw [hf] at h0
            injection h0 with h2
            omega
          | cons a b =>
            have h3 := pfx_length_le hp
            simp only [List.length_cons] at h3
            omega
        rw [← h.2]
        simp only [List.length_drop]
        omega
      · simp [mEmph, hp, hf, hj, -List.drop_one, -List.drop_drop] at h
  · simp [mEmph, hp] at h

theorem mEmph_bound (d : Str) (dc : Char) (hd : d = [dc]) (hdc1 : ¬ dc = '<')
    (hdc2 : ∀ tg ∈ tagSet, dc ∉ tg) :
    ∀ s : Str, TagText tagSet s → ∀ out rest : Str,
      mEmph d s = some (out, rest) → TagText tagSet out ∧ TagText tagSet rest := by
  intro s hs out rest h
  by_cases hp : pfx d s = true
  · cases hf : findSeq d (s.drop 1) with
    | none => simp [mEmph, hp, hf, -List.drop_one, -List.drop_drop] at h
    | some j =>
      by_cases hj : 1 ≤ j
      · simp only [mEmph, hp, if_true, hf, hj, Option.some.injEq, Prod.mk.injEq] at h
        obtain ⟨hout, hrest⟩ := h
        have htake : s.take 1 = [dc] := by
          have h1 := pfx_take hp
          rw [hd] at h1
          simpa using h1
        have hd1 : TagText tagSet (s.drop 1) := by
          refine TagText_drop_of_all_ord 1 hs ?_
          rw [htake]
          intro c hc
          simp only [List.mem_singleton] at hc
          subst hc
          exact hdc1
        have hf2 : findSeq [dc] (s.drop 1) = some j := by rw [← hd]; exact hf
        obtain ⟨hA, hB⟩ := TagText_split_findSeq_ord hdc2 hd1 hf2
        constructor
        · rw [← hout]
          exact TagText_append (TagText_append (TagText_tag1 (by decide)) hA)
            (TagText_tag1 (by decide))
        · rw [← hrest]
          exact hB
      · simp [mEmph, hp, hf, hj, -List.drop_one, -List.drop_drop] at h
  · simp [mEmph, hp] at h

theorem mEmph_mid (d : Str) (dc : Char) (hd : d = [dc])
    (hdc2 : ∀ tg ∈ tagSet, ∀ c ∈ tg.drop 1, ¬ c = dc) :
    ∀ tg ∈ tagSet, ∀ i : Nat, 0 < i → i < tg.length → ∀ z : Str,
      TagText tagSet z → mEmph d (tg.drop i ++ z) = none := by
  have hguard : ∀ s : Str, pfx (dc :: ([] : Str)) s = false → mEmph d s = none := by
    intro s hp
    have h7 : pfx d s = false := by rw [hd]; exact hp
    simp [mEmph, h7]
  exact mid_of_guard hguard hdc2

/-!  ## Stage lemmas: paragraph, marker-unwrap, empty-paragraph and literal passes -/

theorem isWS_ord {c : Char} (h : isWS c = true) : ¬ c = '<' ∧ ¬ c = '>' := by
  constructor <;> intro hc <;> subst hc <;> exact absurd h (by decide)

theorem isDigit_ord {c : Char} (h : isDigit c = true) : ¬ c = '<' ∧ ¬ c = '>' := by
  constructor <;> intro hc <;> subst hc <;> exact absurd h (by decide)

theorem take_takeWhile_len (p : Char → Bool) :
    ∀ s : Str, s.take (s.takeWhile p).length = s.takeWhile p := by
  intro s
  induction s with
  | nil => rfl
  | cons c t ih =>
    by_cases hp : p c = true
    · rw [List.takeWhile_cons_of_pos hp, List.length_cons, List.take_succ_cons, ih]
    · rw [List.takeWhile_cons_of_neg (by simpa using hp)]
      rfl

theorem TagText_drop_takeWhile {p : Char → Bool} (hp : ∀ c, p c = true → ¬ c = '<')
    {s : Str} (hs : TagText tagSet s) :
    TagText tagSet (s.drop (s.takeWhile p).length) := by
  refine TagText_drop_of_all_ord _ hs ?_
  intro c hc
  rw [take_takeWhile_len] at hc
  exact hp c (List.mem_takeWhile_imp hc)

theorem TagText_drop_tag_pfx {s tg u : Str} (hs : TagText tagSet s) (htg : tg ∈ tagSet)
    (hp : pfx (tg ++ u) s = true) :
    pfx u (s.drop tg.length) = true ∧ TagText tagSet (s.drop tg.length) :=
  ⟨pfx_append_drop hp, TagText_pfx_tag hs htg (pfx_split_left hp)⟩

theorem TagText_drop_ord_pfx {s u v : Str} (hs : TagText tagSet s)
    (hu : ∀ c ∈ u, ¬ c = '<') (hp : pfx (u ++ v) s = true) :
    pfx v (s.drop u.length) = true ∧ TagText tagSet (s.drop u.length) := by
  refine ⟨pfx_append_drop hp, ?_⟩
  refine TagText_drop_of_all_ord _ hs ?_
  intro c hc
  rw [pfx_take (pfx_split_left hp)] at hc
  exact hu c hc

theorem mPara_prog : ∀ s out rest : Str, mPara s = some (out, rest) →
    rest.length < s.length := by
  intro s out rest h
  by_cases hp : pfx (S ("\n\n")) s = true
  · simp only [mPara, hp, if_true, Option.some.injEq, Prod.mk.injEq] at h
    obtain ⟨hout, hrest⟩ := h
    cases s with
    | nil => exact absurd hp (by decide)
    | cons c t =>
      have hc : c = '\n' := by
        rw [show S ("\n\n") = '\n' :: ['\n'] from by decide] at hp
        simp only [pfx, Bool.and_eq_true, beq_iff_eq] at hp
        exact hp.1.symm
      subst hc
      rw [← hrest]
      rw [List.takeWhile_cons_of_pos (by decide)]
      simp only [List.length_cons, List.length_drop]
      omega
  · simp [mPara, hp] at h

theorem mPara_bound : ∀ s : Str, TagText tagSet s → ∀ out rest : Str,
    mPara s = some (out, rest) → TagText tagSet out ∧ TagText tagSet rest := by
  intro s hs out rest h
  by_cases hp : pfx (S ("\n\n")) s = true
  · simp only [mPara, hp, if_true, Option.some.injEq, Prod.mk.injEq] at h
    obtain ⟨hout, hrest⟩ := h
    constructor
    · rw [← hout]
      rw [show S ("</p><p>") = S ("</p>") ++ S ("<p>") from by decide]
      exact TagText_append (TagText_tag1 (by decide)) (TagText_tag1 (by decide))
    · rw [← hrest]
      refine TagText_drop_takeWhile (fun c hc => ?_) hs
      have hcn : c = '\n' := by simpa using hc
      subst hcn
      decide
  · simp [mPara, hp] at h

theorem mPara_mid : ∀ tg ∈ tagSet, ∀ i : Nat, 0 < i → i < tg.length → ∀ z : Str,
    TagText tagSet z → mPara (tg.drop i ++ z) = none := by
  have hguard : ∀ s : Str, pfx ('\n' :: S ("\n")) s = false → mPara s = none := by
    intro s hp
    have h7 : pfx (S ("\n\n")) s = false := by
      rw [show S ("\n\n") = '\n' :: S ("\n") from by decide]
      exact hp
    simp [mPara, h7]
  exact mid_of_guard hguard (by decide)

theorem mTblUnwrap_prog : ∀ s out rest : Str, mTblUnwrap s = some (out, rest) →
    rest.length < s.length := by
  intro s out rest h
  simp only [mTblUnwrap] at h
  split at h
  next hp =>
    split at h
    next hc =>
      simp only [Option.some.injEq, Prod.mk.injEq] at h
      obtain ⟨hout, hrest⟩ := h
      have hl := pfx_length_le hp
      rw [show (S ("<p>###TABLE")).length = 11 from by decide] at hl
      rw [← hrest]
      simp only [List.length_drop]
      omega
    next hc => exact absurd h (by simp)
  next hp => exact absurd h (by simp)

theorem mTblUnwrap_bound : ∀ s : Str, TagText tagSet s → ∀ out rest : Str,
    mTblUnwrap s = some (out, rest) → TagText tagSet out ∧ TagText tagSet rest := by
  intro s hs out rest h
  simp only [mTblUnwrap] at h
  split at h
  next hp =>
    split at h
    next hc =>
      simp only [Option.some.injEq, Prod.mk.injEq] at h
      obtain ⟨hout, hrest⟩ := h
      rw [show S ("<p>###TABLE") = S ("<p>") ++ S ("###TABLE") from by decide] at hp
      obtain ⟨hp2, ht3⟩ := TagText_drop_tag_pfx hs (by decide) hp
      rw [show (S ("<p>")).length = 3 from by decide] at hp2 ht3
      have hT : TagText tagSet (s.drop 11) := by
        have h8 := TagText_drop_of_all_ord 8 ht3 ?_
        · rw [List.drop_drop] at h8
          simpa using h8
        · rw [show (8 : Nat) = (S ("###TABLE")).length from by decide, pfx_take hp2]
          decide
      simp only [Bool.and_eq_true] at hc
      have hT2 : TagText tagSet
          ((s.drop 11).drop ((s.drop 11).takeWhile isDigit).length) :=
        TagText_drop_takeWhile (fun c h => (isDigit_ord h).1) hT
      have hc2 := hc.2
      rw [show S ("###</p>") = S ("###") ++ S ("</p>") from by decide] at hc2
      obtain ⟨hp3, hT3⟩ := TagText_drop_ord_pfx hT2 (by decide) hc2
      rw [show (S ("###")).length = 3 from by decide] at hp3 hT3
      have hT4 := TagText_pfx_tag hT3 (by decide) hp3
      rw [show (S ("</p>")).length = 4 from by decide] at hT4
      rw [List.drop_drop, List.drop_drop] at hT4
      rw [show ((s.drop 11).takeWhile isDigit).length + 3 + 4 =
        ((s.drop 11).takeWhile isDigit).length + 7 from by omega] at hT4
      constructor
      · rw [← hout]
        refine TagText_append (TagText_append (TagText_of_ord (by decide)) ?_)
          (TagText_of_ord (by decide))
        refine TagText_of_ord fun c hcm => ?_
        exact isDigit_ord (List.mem_takeWhile_imp hcm)
      · rw [← hrest]
        exact hT4
    next hc => exact absurd h (by simp)
  next hp => exact absurd h (by simp)

theorem mTblUnwrap_mid : ∀ tg ∈ tagSet, ∀ i : Nat, 0 < i → i < tg.length → ∀ z : Str,
    TagText tagSet z → mTblUnwrap (tg.drop i ++ z) = none := by
  have hguard : ∀ s : Str, pfx ('<' :: S ("p>###TABLE")) s = false →
      mTblUnwrap s = none := by
    intro s hp
    have h7 : pfx (S ("<p>###TABLE")) s = false := by
      rw [show S ("<p>###TABLE") = '<' :: S ("p>###TABLE") from by decide]
      exact hp
    simp [mTblUnwrap, h7]
  exact mid_of_guard hguard tagSet_no_inner_lt

theorem mEmptyP_prog : ∀ s out rest : Str, mEmptyP s = some (out, rest) →
    rest.length < s.length := by
  intro s out rest h
  simp only [mEmptyP] at h
  split at h
  next hp =>
    split at h
    next hc =>
      simp only [Option.some.injEq, Prod.mk.injEq] at h
      obtain ⟨hout, hrest⟩ := h
      have hl := pfx_length_le hp
      rw [show (S ("<p>")).length = 3 from by decide] at hl
      rw [← hrest]
      simp only [List.length_drop]
      omega
    next hc => exact absurd h (by simp)
  next hp => exact absurd h (by simp)

theorem mEmptyP_bound : ∀ s : Str, TagText tagSet s → ∀ out rest : Str,
    mEmptyP s = some (out, rest) → TagText tagSet out ∧ TagText tagSet rest := by
  intro s hs out rest h
  simp only [mEmptyP] at h
  split at h
  next hp =>
    split at h
    next hc =>
      simp only [Option.some.injEq, Prod.mk.injEq] at h
      obtain ⟨hout, hrest⟩ := h
      have hT : TagText tagSet (s.drop 3) := by
        have := TagText_pfx_tag hs (show S ("<p>") ∈ tagSet from by decide) hp
        rwa [show (S ("<p>")).length = 3 from by decide] at this
      have hT2 : TagText tagSet
          ((s.drop 3).drop ((s.drop 3).takeWhile isWS).length) :=
        TagText_drop_takeWhile (fun c h => (isWS_ord h).1) hT
      have hT3 := TagText_pfx_tag hT2 (show S ("</p>") ∈ tagSet from by decide) hc
      rw [show (S ("</p>")).length = 4 from by decide] at hT3
      rw [List.drop_drop] at hT3
      constructor
      · rw [← hout]
        exact TagText.nil
      · rw [← hrest]
        exact hT3
    next hc => exact absurd h (by simp)
  next hp => exact absurd h (by simp)

theorem mEmptyP_mid : ∀ tg ∈ tagSet, ∀ i : Nat, 0 < i → i < tg.length → ∀ z : Str,
    TagText tagSet z → mEmptyP (tg.drop i ++ z) = none := by
  have hguard : ∀ s : Str, pfx ('<' :: S ("p>")) s = false → mEmptyP s = none := by
    intro s hp
    have h7 : pfx (S ("<p>")) s = false := by
      rw [show S ("<p>") = '<' :: S ("p>") from by decide]
      exact hp
    simp [mEmptyP, h7]
  exact mid_of_guard hguard tagSet_no_inner_lt

theorem mAny_prog (ps : List (Str × Str)) : ∀ s out rest : Str,
    mAny ps s = some (out, rest) → rest.length < s.length := by
  induction ps with
  | nil => intro s out rest h; simp [mAny] at h
  | cons pr tl ih =>
    intro s out rest h
    obtain ⟨p, o⟩ := pr
    by_cases hc : (!p.isEmpty && pfx p s) = true
    · simp only [mAny, hc, if_true, Option.some.injEq, Prod.mk.injEq] at h
      obtain ⟨ho, hr⟩ := h
      simp only [Bool.and_eq_true, Bool.not_eq_true'] at hc
      have h1 : 1 ≤ p.length := by
        cases p with
        | nil => simp at hc
        | cons a b => simp
      have h2 := pfx_length_le hc.2
      rw [← hr]
      simp only [List.length_drop]
      omega
    · simp only [mAny] at h
      rw [if_neg hc] at h
      exact ih s out rest h

theorem mAny_bound (ps : List (Str × Str))
    (hps : ∀ pr ∈ ps, ∀ s : Str, TagText tagSet s → pfx pr.1 s = true →
      TagText tagSet pr.2 ∧ TagText tagSet (s.drop pr.1.length)) :
    ∀ s : Str, TagText tagSet s → ∀ out rest : Str,
      mAny ps s = some (out, rest) → TagText tagSet out ∧ TagText tagSet rest := by
  induction ps with
  | nil => intro s _ out rest h; simp [mAny] at h
  | cons pr tl ih =>
    intro s hs out rest h
    obtain ⟨p, o⟩ := pr
    by_cases hc : (!p.isEmpty && pfx p s) = true
    · simp only [mAny, hc, if_true, Option.some.injEq, Prod.mk.injEq] at h
      obtain ⟨ho, hr⟩ := h
      simp only [Bool.and_eq_true] at hc
      obtain ⟨h1, h2⟩ := hps (p, o) (List.mem_cons_self _ _) s hs hc.2
      exact ⟨ho ▸ h1, hr ▸ h2⟩
    · simp only [mAny] at h
      rw [if_neg hc] at h
      exact ih (fun pr hpr => hps pr (List.mem_cons_of_mem _ hpr)) s hs out rest h

theorem mAny_mid_lt (ps : List (Str × Str))
    (hlt : ∀ pr ∈ ps, pr.1 ≠ [] ∧ pr.1.headD ' ' = '<') :
    ∀ tg ∈ tagSet, ∀ i : Nat, 0 < i → i < tg.length → ∀ z : Str,
      TagText tagSet z → mAny ps (tg.drop i ++ z) = none := by
  intro tg htg i h0 hi z _
  induction ps with
  | nil => rfl
  | cons pr tl ih =>
    obtain ⟨p, o⟩ := pr
    obtain ⟨hne, hhd⟩ := hlt (p, o) (List.mem_cons_self _ _)
    simp only at hne hhd
    obtain ⟨q, hq⟩ : ∃ q : Str, p = '<' :: q := by
      cases p with
      | nil => exact absurd rfl hne
      | cons c q =>
        simp only [List.headD_cons] at hhd
        exact ⟨q, by rw [hhd]⟩
    subst hq
    have hpf : pfx ('<' :: q) (tg.drop i ++ z) = false :=
      pfx_mid_false htg h0 hi (tagSet_no_inner_lt tg htg) q z
    simp only [mAny]
    rw [if_neg (by simp [hpf])]
    exact ih fun pr hpr => hlt pr (List.mem_cons_of_mem _ hpr)

/-!  ## Fuel-independence and decomposition of the rewrite passes -/

theorem rwGo_fuel {m : Str → Option (Str × Str)}
    (hprog : ∀ s out rest, m s = some (out, rest) → rest.length < s.length) :
    ∀ f1 f2 : Nat, ∀ s : Str, s.length ≤ f1 → s.length ≤ f2 →
      rwGo m f1 s = rwGo m f2 s := by
  intro f1
  induction f1 with
  | zero =>
    intro f2 s h1 _
    have : s = [] := List.length_eq_zero.mp (Nat.le_zero.mp h1)
    subst this
    cases f2 <;> rfl
  | succ f ih =>
    intro f2 s h1 h2
    cases s with
    | nil => cases f2 <;> rfl
    | cons c t =>
      cases f2 with
      | zero => simp at h2
      | succ g =>
        rw [rwGo, rwGo]
        cases hm : m (c :: t) with
        | none =>
          have hl : t.length ≤ f := by simp at h1; omega
          have hl2 : t.length ≤ g := by simp at h2; omega
          show c :: rwGo m f t = c :: rwGo m g t
          rw [ih g t hl hl2]
        | some pr =>
          obtain ⟨out, rest⟩ := pr
          have hlt := hprog _ _ _ hm
          simp only [List.length_cons] at hlt h1 h2
          show out ++ rwGo m f rest = out ++ rwGo m g rest
          rw [ih g rest (by omega) (by omega)]

theorem rwAll_cons_none {m : Str → Option (Str × Str)} {c : Char} {t : Str}
    (hm : m (c :: t) = none) : rwAll m (c :: t) = c :: rwAll m t := by
  show rwGo m (t.length + 1) (c :: t) = _
  rw [rwGo, hm]
  rfl

theorem rwAll_cons_some {m : Str → Option (Str × Str)}
    (hprog : ∀ s out rest, m s = some (out, rest) → rest.length < s.length)
    {c : Char} {t out rest : Str} (hm : m (c :: t) = some (out, rest)) :
    rwAll m (c :: t) = out ++ rwAll m rest := by
  show rwGo m (t.length + 1) (c :: t) = _
  rw [rwGo, hm]
  have hlt := hprog _ _ _ hm
  simp only [List.length_cons] at hlt
  show out ++ rwGo m t.length rest = out ++ rwAll m rest
  rw [rwGo_fuel hprog t.length rest.length rest (by omega) (Nat.le_refl _)]
  rfl

theorem rwAll_append_nofire {m : Str → Option (Str × Str)}
    (hprog : ∀ s out rest, m s = some (out, rest) → rest.length < s.length) :
    ∀ a z : Str, (∀ i, i < a.length → m (a.drop i ++ z) = none) →
      rwAll m (a ++ z) = a ++ rwAll m z := by
  intro a
  induction a with
  | nil => intro z _; simp
  | cons c a' ih =>
    intro z hno
    have h0 : m (c :: (a' ++ z)) = none := by
      have := hno 0 (by simp)
      simpa using this
    have ha' : ∀ i, i < a'.length → m (a'.drop i ++ z) = none := by
      intro i hi
      have := hno (i + 1) (by simp; omega)
      simpa using this
    rw [List.cons_append, rwAll_cons_none h0, ih z ha']
    rfl

theorem rwAll_TagText {m : Str → Option (Str × Str)}
    (hprog : ∀ s out rest, m s = some (out, rest) → rest.length < s.length)
    (hbound : ∀ s, TagText tagSet s → ∀ out rest, m s = some (out, rest) →
      TagText tagSet out ∧ TagText tagSet rest)
    (hmid : ∀ tg ∈ tagSet, ∀ i, 0 < i → i < tg.length → ∀ z : Str, TagText tagSet z →
      m (tg.drop i ++ z) = none) :
    ∀ s : Str, TagText tagSet s → TagText tagSet (rwAll m s) := by
  suffices h : ∀ n : Nat, ∀ s : Str, s.length ≤ n → TagText tagSet s →
      TagText tagSet (rwAll m s) from fun s hs => h s.length s (Nat.le_refl _) hs
  intro n
  induction n with
  | zero =>
    intro s h1 _
    have : s = [] := List.length_eq_zero.mp (Nat.le_zero.mp h1)
    subst this
    exact TagText.nil
  | succ n ih =>
    intro s hlen hs
    rcases TagText_cases hs with rfl | ⟨c, t, rfl, hc1, hc2, ht⟩ | ⟨tg, z, rfl, htg, hz⟩
    · exact TagText.nil
    · cases hm : m (c :: t) with
      | none =>
        rw [rwAll_cons_none hm]
        have hl : t.length ≤ n := by simp at hlen; omega
        exact TagText.ord _ _ hc1 hc2 (ih t hl ht)
      | some pr =>
        obtain ⟨out, rest⟩ := pr
        rw [rwAll_cons_some hprog hm]
        obtain ⟨hout, hrest⟩ := hbound _ hs _ _ hm
        have hr : rest.length ≤ n := by
          have := hprog _ _ _ hm
          simp only [List.length_cons] at this hlen
          omega
        exact TagText_append hout (ih rest hr hrest)
    · cases hm : m (tg ++ z) with
      | none =>
        have hno : ∀ i, i < tg.length → m (tg.drop i ++ z) = none := by
          intro i hi
          cases i with
          | zero => simpa using hm
          | succ j => exact hmid tg htg (j + 1) (Nat.succ_pos j) hi z hz
        rw [rwAll_append_nofire hprog tg z hno]
        have htg1 : 1 ≤ tg.length :=
          List.length_pos.mpr (tagSet_ne tg htg)
        have hzl : z.length ≤ n := by
          simp only [List.length_append] at hlen
          omega
        exact TagText.tag _ _ htg (ih z hzl hz)
      | some pr =>
        obtain ⟨out, rest⟩ := pr
        obtain ⟨r, hr⟩ := tagSet_cons_lt htg
        have he : tg ++ z = '<' :: (r ++ z) := by rw [hr]; rfl
        rw [he] at hm ⊢
        rw [rwAll_cons_some hprog hm]
        rw [← he] at hm
        obtain ⟨hout, hrest⟩ := hbound _ hs _ _ hm
        have hrl : rest.length ≤ n := by
          have := hprog _ _ _ hm
          rw [he] at this
          simp only [List.length_cons] at this
          rw [he] at hlen
          simp only [List.length_cons] at hlen
          omega
        exact TagText_append hout (ih rest hrl hrest)

/-!  ## Stage lemmas: the list-wrapping and class-removal passes -/

theorem liRunGo_prog (opn : Str) (hopn : opn ≠ []) :
    ∀ fuel : Nat, ∀ s txt rest : Str, liRunGo opn fuel s = some (txt, rest) →
      rest.length < s.length := by
  intro fuel
  induction fuel with
  | zero => intro s txt rest h; exact absurd h (by simp [liRunGo])
  | succ n ih =>
    intro s txt rest h
    simp only [liRunGo] at h
    split at h
    next hp =>
      split at h
      next k hf =>
        have h1 : 1 ≤ opn.length := List.length_pos.mpr hopn
        have h2 := pfx_length_le hp
        split at h
        next more rest2 hrec =>
          simp only [Option.some.injEq, Prod.mk.injEq] at h
          have h3 := ih _ _ _ hrec
          rw [← h.2]
          simp only [List.length_drop] at h3 ⊢
          omega
        next hrec =>
          simp only [Option.some.injEq, Prod.mk.injEq] at h
          rw [← h.2]
          simp only [List.length_drop]
          omega
      next hf => exact absurd h (by simp)
    next hp => exact absurd h (by simp)

theorem liRunGo_bound (opn : Str) (hopn : opn ∈ tagSet) :
    ∀ fuel : Nat, ∀ s : Str, TagText tagSet s → ∀ txt rest : Str,
      liRunGo opn fuel s = some (txt, rest) →
      TagText tagSet txt ∧ TagText tagSet rest := by
  intro fuel
  induction fuel with
  | zero => intro s _ txt rest h; exact absurd h (by simp [liRunGo])
  | succ n ih =>
    intro s hs txt rest h
    simp only [liRunGo] at h
    split at h
    next hp =>
      split at h
      next k hf =>
        have hr : TagText tagSet (s.drop opn.length) := TagText_pfx_tag hs hopn hp
        obtain ⟨hBody, hAfter⟩ := TagText_split_findSeq_tag (by decide) hr hf
        have hAfterWs : TagText tagSet
            (((s.drop opn.length).drop (k + liClose.length)).drop
              (((s.drop opn.length).drop (k + liClose.length)).takeWhile isWS).length) :=
          TagText_drop_takeWhile (fun c hci => (isWS_ord hci).1) hAfter
        have hItem : TagText tagSet (opn ++ (s.drop opn.length).take k ++ liClose ++
            ((s.drop opn.length).drop (k + liClose.length)).takeWhile isWS) := by
          refine TagText_append (TagText_append (TagText_append (TagText_tag1 hopn) hBody)
            (TagText_tag1 (by decide))) ?_
          refine TagText_of_ord fun c hcm => ?_
          exact isWS_ord (List.mem_takeWhile_imp hcm)
        split at h
        next more rest2 hrec =>
          simp only [Option.some.injEq, Prod.mk.injEq] at h
          obtain ⟨hMore, hRest2⟩ := ih _ hAfterWs _ _ hrec
          exact ⟨h.1 ▸ TagText_append hItem hMore, h.2 ▸ hRest2⟩
        next hrec =>
          simp only [Option.some.injEq, Prod.mk.injEq] at h
          exact ⟨h.1 ▸ hItem, h.2 ▸ hAfterWs⟩
      next hf => exact absurd h (by simp)
    next hp => exact absurd h (by simp)

theorem mWrap_prog (opn wrapO wrapC : Str) (hopn : opn ≠ []) :
    ∀ s out rest : Str, mWrap opn wrapO wrapC s = some (out, rest) →
      rest.length < s.length := by
  intro s out rest h
  simp only [mWrap] at h
  split at h
  next txt rest2 hrun =>
    simp only [Option.some.injEq, Prod.mk.injEq] at h
    exact h.2 ▸ liRunGo_prog opn hopn _ _ _ _ hrun
  next hrun => exact absurd h (by simp)

theorem mWrap_bound (opn wrapO wrapC : Str) (hopn : opn ∈ tagSet)
    (hwo : wrapO ∈ tagSet) (hwc : wrapC ∈ tagSet) :
    ∀ s : Str, TagText tagSet s → ∀ out rest : Str,
      mWrap opn wrapO wrapC s = some (out, rest) →
      TagText tagSet out ∧ TagText tagSet rest := by
  intro s hs out rest h
  simp only [mWrap] at h
  split at h
  next txt rest2 hrun =>
    simp only [Option.some.injEq, Prod.mk.injEq] at h
    obtain ⟨hTxt, hRest⟩ := liRunGo_bound opn hopn _ _ hs _ _ hrun
    refine ⟨h.1 ▸ ?_, h.2 ▸ hRest⟩
    exact TagText_append (TagText_append (TagText_tag1 hwo) hTxt) (TagText_tag1 hwc)
  next hrun => exact absurd h (by simp)

theorem mWrap_mid (opn wrapO wrapC : Str) (hopn : opn ∈ tagSet) :
    ∀ tg ∈ tagSet, ∀ i : Nat, 0 < i → i < tg.length → ∀ z : Str,
      TagText tagSet z → mWrap opn wrapO wrapC (tg.drop i ++ z) = none := by
  intro tg htg i h0 hi z _
  obtain ⟨q, hq⟩ := tagSet_cons_lt hopn
  have hpf : pfx opn (tg.drop i ++ z) = false := by
    rw [hq]
    exact pfx_mid_false htg h0 hi (tagSet_no_inner_lt tg htg) q z
  have hrun : ∀ fuel : Nat, liRunGo opn fuel (tg.drop i ++ z) = none := by
    intro fuel
    cases fuel with
    | zero => rfl
    | succ n => simp [liRunGo, hpf]
  simp [mWrap, hrun]

theorem noFireInside_spec {pat tg : Str} (h : noFireInside pat tg = true) :
    ∀ i : Nat, i < tg.length → ∀ z : Str, pfx pat (tg.drop i ++ z) = false := by
  intro i hi z
  simp only [noFireInside, List.all_eq_true, List.mem_range] at h
  have h2 := h i hi
  split at h2
  next hle =>
    rw [pfx_append_of_le z hle]
    simpa using h2
  next hlt =>
    refine pfx_append_false z ?_ (by simpa using h2)
    omega

theorem classRemove_guard (pat : Str) :
    ∀ s : Str, pfx pat s = false → mAny [(pat, [])] s = none := by
  intro s hp
  simp [mAny, hp]

theorem classRemove_ol_trace : ∀ z : Str,
    rwAll (mAny [(S ("class=\"ol-item\""), [])]) (liOpenOl ++ z) =
      S ("<li >") ++ rwAll (mAny [(S ("class=\"ol-item\""), [])]) z := by
  intro z
  have hpc : S ("class=\"ol-item\"") = 'c' :: S ("lass=\"ol-item\"") := by decide
  have hguard := classRemove_guard (S ("class=\"ol-item\""))
  have hprog := mAny_prog [(S ("class=\"ol-item\""), [])]
  have hdecomp : liOpenOl ++ z = '<' :: 'l' :: 'i' :: ' ' ::
      (S ("class=\"ol-item\"") ++ ('>' :: z)) := by
    rw [show liOpenOl = '<' :: 'l' :: 'i' :: ' ' :: (S ("class=\"ol-item\"") ++ ['>'])
      from by decide]
    simp only [List.cons_append, List.append_assoc, List.singleton_append, List.nil_append]
  have hne : ∀ e : Char, ∀ r : Str, ¬ 'c' = e →
      mAny [(S ("class=\"ol-item\""), [])] (e :: r) = none := by
    intro e r he
    refine hguard _ ?_
    rw [hpc]
    exact pfx_cons_ne he _ _
  have hfire : mAny [(S ("class=\"ol-item\""), [])]
      (S ("class=\"ol-item\"") ++ ('>' :: z)) =
      some ([], '>' :: z) := by
    have hp := pfx_refl_append (S ("class=\"ol-item\"")) ('>' :: z)
    simp only [mAny, hp, Bool.and_true]
    rw [if_pos (by decide)]
    rw [List.drop_left]
  rw [hdecomp]
  rw [rwAll_cons_none (hne _ _ (by decide)), rwAll_cons_none (hne _ _ (by decide)),
    rwAll_cons_none (hne _ _ (by decide)), rwAll_cons_none (hne _ _ (by decide))]
  have h5 : S ("class=\"ol-item\"") ++ ('>' :: z) =
      'c' :: (S ("lass=\"ol-item\"") ++ ('>' :: z)) := by
    rw [hpc]
    rfl
  rw [h5, rwAll_cons_some hprog (by rw [← h5]; exact hfire)]
  rw [rwAll_cons_none (hne _ _ (by decide))]
  rw [show S ("<li >") = '<' :: 'l' :: 'i' :: ' ' :: ['>'] from by decide]
  simp

theorem classRemove_ul_trace : ∀ z : Str,
    rwAll (mAny [(S ("class=\"ul-item\""), [])]) (liOpenUl ++ z) =
      S ("<li >") ++ rwAll (mAny [(S ("class=\"ul-item\""), [])]) z := by
  intro z
  have hpc : S ("class=\"ul-item\"") = 'c' :: S ("lass=\"ul-item\"") := by decide
  have hguard := classRemove_guard (S ("class=\"ul-item\""))
  have hprog := mAny_prog [(S ("class=\"ul-item\""), [])]
  have hdecomp : liOpenUl ++ z = '<' :: 'l' :: 'i' :: ' ' ::
      (S ("class=\"ul-item\"") ++ ('>' :: z)) := by
    rw [show liOpenUl = '<' :: 'l' :: 'i' :: ' ' :: (S ("class=\"ul-item\"") ++ ['>'])
      from by decide]
    simp only [List.cons_append, List.append_assoc, List.singleton_append, List.nil_append]
  have hne : ∀ e : Char, ∀ r : Str, ¬ 'c' = e →
      mAny [(S ("class=\"ul-item\""), [])] (e :: r) = none := by
    intro e r he
    refine hguard _ ?_
    rw [hpc]
    exact pfx_cons_ne he _ _
  have hfire : mAny [(S ("class=\"ul-item\""), [])]
      (S ("class=\"ul-item\"") ++ ('>' :: z)) =
      some ([], '>' :: z) := by
    have hp := pfx_refl_append (S ("class=\"ul-item\"")) ('>' :: z)
    simp only [mAny, hp, Bool.and_true]
    rw [if_pos (by decide)]
    rw [List.drop_left]
  rw [hdecomp]
  rw [rwAll_cons_none (hne _ _ (by decide)), rwAll_cons_none (hne _ _ (by decide)),
    rwAll_cons_none (hne _ _ (by decide)), rwAll_cons_none (hne _ _ (by decide))]
  have h5 : S ("class=\"ul-item\"") ++ ('>' :: z) =
      'c' :: (S ("lass=\"ul-item\"") ++ ('>' :: z)) := by
    rw [hpc]
    rfl
  rw [h5, rwAll_cons_some hprog (by rw [← h5]; exact hfire)]
  rw [rwAll_cons_none (hne _ _ (by decide))]
  rw [show S ("<li >") = '<' :: 'l' :: 'i' :: ' ' :: ['>'] from by decide]
  simp

theorem classRemove_TagText (pat liTag : Str) (hli : liTag ∈ tagSet)
    (hpat_ord : ∀ c ∈ pat, ¬ c = '<')
    (hLi : ∀ z : Str, rwAll (mAny [(pat, [])]) (liTag ++ z) =
      S ("<li >") ++ rwAll (mAny [(pat, [])]) z)
    (hNo : ∀ tg ∈ tagSet, tg = liTag ∨ noFireInside pat tg = true) :
    ∀ s : Str, TagText tagSet s → TagText tagSet (rwAll (mAny [(pat, [])]) s) := by
  have hprog := mAny_prog [(pat, [])]
  suffices h : ∀ n : Nat, ∀ s : Str, s.length ≤ n → TagText tagSet s →
      TagText tagSet (rwAll (mAny [(pat, [])]) s) from
    fun s hs => h s.length s (Nat.le_refl _) hs
  intro n
  induction n with
  | zero =>
    intro s h1 _
    have : s = [] := List.length_eq_zero.mp (Nat.le_zero.mp h1)
    subst this
    exact TagText.nil
  | succ n ih =>
    intro s hlen hs
    rcases TagText_cases hs with rfl | ⟨c, t, rfl, hc1, hc2, ht⟩ | ⟨tg, z, rfl, htg, hz⟩
    · exact TagText.nil
    · cases hm : mAny [(pat, [])] (c :: t) with
      | none =>
        rw [rwAll_cons_none hm]
        have hl : t.length ≤ n := by simp at hlen; omega
        exact TagText.ord _ _ hc1 hc2 (ih t hl ht)
      | some pr =>
        obtain ⟨out, rest⟩ := pr
        rw [rwAll_cons_some hprog hm]
        have hm2 := hm
        simp only [mAny] at hm2
        split at hm2
        next hcond =>
          simp only [Option.some.injEq, Prod.mk.injEq] at hm2
          obtain ⟨hout, hrest⟩ := hm2
          have hcond2 : pfx pat (c :: t) = true := by
            simp only [Bool.and_eq_true] at hcond
            exact hcond.2
          have hRest : TagText tagSet ((c :: t).drop pat.length) := by
            refine TagText_drop_of_all_ord _ hs ?_
            rw [pfx_take hcond2]
            exact hpat_ord
          have hr : rest.length ≤ n := by
            have := hprog _ _ _ hm
            simp only [List.length_cons] at this hlen
            omega
          refine TagText_append ?_ (ih rest hr (hrest ▸ hRest))
          rw [← hout]
          exact TagText.nil
        next hcond => exact absurd hm2 (by simp)
    · rcases hNo tg htg with rfl | hnf
      · rw [hLi z]
        have hlt1 : 1 ≤ tg.length := List.length_pos.mpr (tagSet_ne tg htg)
        have hzl : z.length ≤ n := by
          simp only [List.length_append] at hlen
          omega
        exact TagText.tag _ _ (by decide) (ih z hzl hz)
      · have hno : ∀ i, i < tg.length → mAny [(pat, [])] (tg.drop i ++ z) = none := by
          intro i hi
          exact classRemove_guard pat _ (noFireInside_spec hnf i hi z)
        rw [rwAll_append_nofire hprog tg z hno]
        have hlt1 : 1 ≤ tg.length := List.length_pos.mpr (tagSet_ne tg htg)
        have hzl : z.length ≤ n := by
          simp only [List.length_append] at hlen
          omega
        exact TagText.tag _ _ htg (ih z hzl hz)

/-!  ## Stage lemmas: the line-anchored passes, line breaks and identities -/

theorem splitCh_append_nosep {sep : Char} {a : Str} (h : sep ∉ a) (z : Str) :
    splitCh sep (a ++ z) =
      (a ++ (splitCh sep z).headD ([] : Str)) :: (splitCh sep z).tail := by
  induction a with
  | nil =>
    cases hsp : splitCh sep z with
    | nil => exact absurd hsp (splitCh_ne_nil _ _)
    | cons l r => simp [hsp]
  | cons c a' ih =>
    have hc : c ≠ sep := fun hc => h (hc ▸ List.mem_cons_self _ _)
    have ha' : sep ∉ a' := fun hm => h (List.mem_cons_of_mem _ hm)
    rw [List.cons_append]
    show splitCh sep (c :: (a' ++ z)) = _
    simp only [splitCh, ih ha']
    rw [if_neg (by simpa using hc)]
    rfl

theorem splitCh_TagText : ∀ {s : Str}, TagText tagSet s →
    ∀ l ∈ splitCh '\n' s, TagText tagSet l := by
  intro s h
  induction h with
  | nil =>
    intro l hl
    simp only [splitCh, List.mem_singleton] at hl
    subst hl
    exact TagText.nil
  | ord c t h1 h2 h3 ih =>
    intro l hl
    cases hsp : splitCh '\n' t with
    | nil => exact absurd hsp (splitCh_ne_nil _ _)
    | cons lh lr =>
      by_cases hc : c = '\n'
      · subst hc
        rw [show splitCh '\n' ('\n' :: t) = [] :: lh :: lr from by
          simp only [splitCh, hsp]; simp] at hl
        rcases List.mem_cons.mp hl with rfl | hl2
        · exact TagText.nil
        · exact ih l (hsp ▸ hl2)
      · rw [show splitCh '\n' (c :: t) = (c :: lh) :: lr from by
          simp only [splitCh, hsp]
          rw [if_neg (by simpa using hc)]] at hl
        rcases List.mem_cons.mp hl with rfl | hl2
        · exact TagText.ord _ _ h1 h2 (ih lh (hsp ▸ List.mem_cons_self _ _))
        · exact ih l (hsp ▸ List.mem_cons_of_mem _ hl2)
  | tag tg z htg hz ih =>
    intro l hl
    have hnl : '\n' ∉ tg := by
      have : ∀ tg2 ∈ tagSet, '\n' ∉ tg2 := by decide
      exact this tg htg
    rw [splitCh_append_nosep hnl] at hl
    cases hsp : splitCh '\n' z with
    | nil => exact absurd hsp (splitCh_ne_nil _ _)
    | cons lh lr =>
      rw [hsp] at hl
      rcases List.mem_cons.mp hl with rfl | hl2
      · exact TagText.tag _ _ htg (ih lh (hsp ▸ List.mem_cons_self _ _))
      · exact ih l (hsp ▸ List.mem_cons_of_mem _ hl2)

theorem joinNl_TagText : ∀ {ls : List Str}, (∀ l ∈ ls, TagText tagSet l) →
    TagText tagSet (joinNl ls) := by
  intro ls
  induction ls with
  | nil => intro _; exact TagText.nil
  | cons l r ih =>
    intro h
    cases r with
    | nil => exact h l (List.mem_cons_self _ _)
    | cons l2 r2 =>
      show TagText tagSet (l ++ '\n' :: joinNl (l2 :: r2))
      refine TagText_append (h l (List.mem_cons_self _ _)) ?_
      refine TagText.ord _ _ (by decide) (by decide) ?_
      exact ih fun l3 hl3 => h l3 (List.mem_cons_of_mem _ hl3)

theorem lineMap_TagText {f : Str → Str} (hf : ∀ l : Str, TagText tagSet l →
    TagText tagSet (f l)) {s : Str} (hs : TagText tagSet s) :
    TagText tagSet (lineMap f s) := by
  refine joinNl_TagText ?_
  intro l hl
  obtain ⟨l0, hl0, rfl⟩ := List.mem_map.mp hl
  exact hf l0 (splitCh_TagText hs l0 hl0)

theorem hrLine_TT : ∀ l : Str, TagText tagSet l → TagText tagSet (hrLine l) := by
  intro l hl
  unfold hrLine
  split
  · exact TagText_tag1 (by decide)
  · exact hl

theorem bqLine_TT : ∀ l : Str, TagText tagSet l → TagText tagSet (bqLine l) := by
  intro l hl
  unfold bqLine
  split
  next hc =>
    simp only [Bool.and_eq_true] at hc
    have hdrop : TagText tagSet (l.drop 5) := by
      refine TagText_drop_of_all_ord 5 hl ?_
      rw [show (5 : Nat) = (S ("&gt; ")).length from by decide, pfx_take hc.1]
      decide
    exact TagText_append (TagText_append (TagText_tag1 (by decide)) hdrop)
      (TagText_tag1 (by decide))
  next => exact hl

theorem hLine_TT (pref opnT clsT : Str) (hpref : ∀ c ∈ pref, ¬ c = '<')
    (hopnT : opnT ∈ tagSet) (hclsT : clsT ∈ tagSet) :
    ∀ l : Str, TagText tagSet l → TagText tagSet (hLine pref opnT clsT l) := by
  intro l hl
  unfold hLine
  split
  next hc =>
    simp only [Bool.and_eq_true] at hc
    have hdrop : TagText tagSet (l.drop pref.length) := by
      refine TagText_drop_of_all_ord _ hl ?_
      rw [pfx_take hc.1]
      exact hpref
    exact TagText_append (TagText_append (TagText_tag1 hopnT) hdrop)
      (TagText_tag1 hclsT)
  next => exact hl

theorem olLine_TT : ∀ l : Str, TagText tagSet l → TagText tagSet (olLine l) := by
  intro l hl
  simp only [olLine]
  split
  next hc =>
    simp only [Bool.and_eq_true] at hc
    have h1 : TagText tagSet (l.drop (l.takeWhile isDigit).length) :=
      TagText_drop_takeWhile (fun c h => (isDigit_ord h).1) hl
    have h2 : TagText tagSet ((l.drop (l.takeWhile isDigit).length).drop 2) := by
      refine TagText_drop_of_all_ord 2 h1 ?_
      rw [show (2 : Nat) = (S (". ")).length from by decide, pfx_take hc.1.2]
      decide
    rw [List.drop_drop] at h2
    exact TagText_append (TagText_append (TagText_tag1 (by decide)) h2)
      (TagText_tag1 (by decide))
  next => exact hl

theorem ulLine_TT : ∀ l : Str, TagText tagSet l → TagText tagSet (ulLine l) := by
  intro l hl
  unfold ulLine
  split
  next hc =>
    simp only [Bool.and_eq_true, Bool.or_eq_true] at hc
    have h2 : TagText tagSet (l.drop 2) := by
      refine TagText_drop_of_all_ord 2 hl ?_
      rcases hc.1 with hp | hp
      · rw [show (2 : Nat) = (S ("- ")).length from by decide, pfx_take hp]
        decide
      · rw [show (2 : Nat) = (S ("* ")).length from by decide, pfx_take hp]
        decide
    exact TagText_append (TagText_append (TagText_tag1 (by decide)) h2)
      (TagText_tag1 (by decide))
  next => exact hl

theorem brAll_append : ∀ a b : Str, brAll (a ++ b) = brAll a ++ brAll b := by
  intro a b
  induction a with
  | nil => rfl
  | cons c t ih =>
    show brAll (c :: (t ++ b)) = _
    rw [brAll, ih]
    show _ = ((if c == '\n' then S ("<br>") else [c]) ++ brAll t) ++ brAll b
    rw [List.append_assoc]

theorem brAll_id_of_no_nl : ∀ a : Str, (∀ c ∈ a, ¬ c = '\n') → brAll a = a := by
  intro a
  induction a with
  | nil => intro _; rfl
  | cons c t ih =>
    intro h
    rw [brAll]
    have hc : (c == '\n') = false := by
      simpa using h c (List.mem_cons_self _ _)
    rw [hc]
    simp only [Bool.false_eq_true, if_false]
    rw [ih fun d hd => h d (List.mem_cons_of_mem _ hd)]
    rfl

theorem brAll_TT : ∀ {s : Str}, TagText tagSet s → TagText tagSet (brAll s) := by
  intro s h
  induction h with
  | nil => exact TagText.nil
  | ord c t h1 h2 h3 ih =>
    rw [brAll]
    by_cases hc : (c == '\n') = true
    · rw [hc]
      simp only [if_true]
      exact TagText_append (TagText_tag1 (by decide)) ih
    · rw [(by simpa using hc : (c == '\n') = false)]
      simp only [Bool.false_eq_true, if_false]
      exact TagText.ord _ _ h1 h2 ih
  | tag tg z htg hz ih =>
    rw [brAll_append]
    have hnl : brAll tg = tg := by
      refine brAll_id_of_no_nl tg ?_
      have : ∀ tg2 ∈ tagSet, ∀ c ∈ tg2, ¬ c = '\n' := by decide
      exact this tg htg
    rw [hnl]
    exact TagText.tag _ _ htg ih

theorem restoreMarkers_zero (s : Str) : restoreMarkers 0 s = s := rfl

theorem restoreTables_nil (s : Str) : restoreTables [] s = s := rfl

theorem hps_pat2 (t1 t2 : Str) {pat o : Str} (he : pat = t1 ++ t2)
    (h1 : t1 ∈ tagSet) (h2 : t2 ∈ tagSet) (ho : TagText tagSet o) :
    ∀ s : Str, TagText tagSet s → pfx pat s = true →
      TagText tagSet o ∧ TagText tagSet (s.drop pat.length) := by
  subst he
  intro s hs hp
  refine ⟨ho, ?_⟩
  obtain ⟨hp2, hT2⟩ := TagText_drop_tag_pfx hs h1 hp
  have hT3 := TagText_pfx_tag hT2 h2 hp2
  rw [List.drop_drop] at hT3
  rw [List.length_append]
  exact hT3

theorem hps_pat3 (t1 t2 t3 : Str) {pat o : Str} (he : pat = t1 ++ t2 ++ t3)
    (h1 : t1 ∈ tagSet) (h2 : t2 ∈ tagSet) (h3 : t3 ∈ tagSet)
    (ho : TagText tagSet o) :
    ∀ s : Str, TagText tagSet s → pfx pat s = true →
      TagText tagSet o ∧ TagText tagSet (s.drop pat.length) := by
  subst he
  intro s hs hp
  refine ⟨ho, ?_⟩
  rw [List.append_assoc] at hp
  obtain ⟨hp2, hT2⟩ := TagText_drop_tag_pfx hs h1 hp
  obtain ⟨hp3, hT3⟩ := TagText_drop_tag_pfx hT2 h2 hp2
  have hT4 := TagText_pfx_tag hT3 h3 hp3
  rw [List.drop_drop, List.drop_drop] at hT4
  rw [List.length_append, List.length_append]
  rw [← Nat.add_assoc] at hT4
  exact hT4

set_option maxHeartbeats 2000000 in
theorem afterProtect_nil_TagText (t : Str) :
    TagText tagSet (afterProtect [] t) := by
  have hps23 : ∀ pr ∈ [(S ("<p><h1>"), S ("<h1>")), (S ("<p><h2>"), S ("<h2>")),
      (S ("<p><h3>"), S ("<h3>"))], ∀ s : Str, TagText tagSet s →
      pfx pr.1 s = true → TagText tagSet pr.2 ∧ TagText tagSet (s.drop pr.1.length) := by
    intro pr hpr
    simp only [List.mem_cons, List.not_mem_nil, or_false] at hpr
    rcases hpr with rfl | rfl | rfl
    · exact hps_pat2 (S ("<p>")) (S ("<h1>")) (by decide) (by decide) (by decide)
        (TagText_tag1 (by decide))
    · exact hps_pat2 (S ("<p>")) (S ("<h2>")) (by decide) (by decide) (by decide)
        (TagText_tag1 (by decide))
    · exact hps_pat2 (S ("<p>")) (S ("<h3>")) (by decide) (by decide) (by decide)
        (TagText_tag1 (by decide))
  have hps24 : ∀ pr ∈ [(S ("</h1></p>"), S ("</h1>")), (S ("</h2></p>"), S ("</h2>")),
      (S ("</h3></p>"), S ("</h3>"))], ∀ s : Str, TagText tagSet s →
      pfx pr.1 s = true → TagText tagSet pr.2 ∧ TagText tagSet (s.drop pr.1.length) := by
    intro pr hpr
    simp only [List.mem_cons, List.not_mem_nil, or_false] at hpr
    rcases hpr with rfl | rfl | rfl
    · exact hps_pat2 (S ("</h1>")) (S ("</p>")) (by decide) (by decide) (by decide)
        (TagText_tag1 (by decide))
    · exact hps_pat2 (S ("</h2>")) (S ("</p>")) (by decide) (by decide) (by decide)
        (TagText_tag1 (by decide))
    · exact hps_pat2 (S ("</h3>")) (S ("</p>")) (by decide) (by decide) (by decide)
        (TagText_tag1 (by decide))
  have hps25 : ∀ pr ∈ [(S ("<p><hr></p>"), S ("<hr>"))], ∀ s : Str, TagText tagSet s →
      pfx pr.1 s = true → TagText tagSet pr.2 ∧ TagText tagSet (s.drop pr.1.length) := by
    intro pr hpr
    rcases List.mem_singleton.mp hpr with rfl
    exact hps_pat3 (S ("<p>")) (S ("<hr>")) (S ("</p>")) (by decide) (by decide)
      (by decide) (by decide) (TagText_tag1 (by decide))
  have hps26 : ∀ pr ∈ [(S ("<p><blockquote>"), S ("<blockquote>"))], ∀ s : Str,
      TagText tagSet s → pfx pr.1 s = true →
      TagText tagSet pr.2 ∧ TagText tagSet (s.drop pr.1.length) := by
    intro pr hpr
    rcases List.mem_singleton.mp hpr with rfl
    exact hps_pat2 (S ("<p>")) (S ("<blockquote>")) (by decide) (by decide) (by decide)
      (TagText_tag1 (by decide))
  have hps27 : ∀ pr ∈ [(S ("</blockquote></p>"), S ("</blockquote>"))], ∀ s : Str,
      TagText tagSet s → pfx pr.1 s = true →
      TagText tagSet pr.2 ∧ TagText tagSet (s.drop pr.1.length) := by
    intro pr hpr
    rcases List.mem_singleton.mp hpr with rfl
    exact hps_pat2 (S ("</blockquote>")) (S ("</p>")) (by decide) (by decide) (by decide)
      (TagText_tag1 (by decide))
  have hps28 : ∀ pr ∈ [(S ("<p><ul>"), S ("<ul>"))], ∀ s : Str, TagText tagSet s →
      pfx pr.1 s = true → TagText tagSet pr.2 ∧ TagText tagSet (s.drop pr.1.length) := by
    intro pr hpr
    rcases List.mem_singleton.mp hpr with rfl
    exact hps_pat2 (S ("<p>")) (S ("<ul>")) (by decide) (by decide) (by decide)
      (TagText_tag1 (by decide))
  have hps29 : ∀ pr ∈ [(S ("</ul></p>"), S ("</ul>"))], ∀ s : Str, TagText tagSet s →
      pfx pr.1 s = true → TagText tagSet pr.2 ∧ TagText tagSet (s.drop pr.1.length) := by
    intro pr hpr
    rcases List.mem_singleton.mp hpr with rfl
    exact hps_pat2 (S ("</ul>")) (S ("</p>")) (by decide) (by decide) (by decide)
      (TagText_tag1 (by decide))
  have hps30 : ∀ pr ∈ [(S ("<p><ol>"), S ("<ol>"))], ∀ s : Str, TagText tagSet s →
      pfx pr.1 s = true → TagText tagSet pr.2 ∧ TagText tagSet (s.drop pr.1.length) := by
    intro pr hpr
    rcases List.mem_singleton.mp hpr with rfl
    exact hps_pat2 (S ("<p>")) (S ("<ol>")) (by decide) (by decide) (by decide)
      (TagText_tag1 (by decide))
  have hps31 : ∀ pr ∈ [(S ("</ol></p>"), S ("</ol>"))], ∀ s : Str, TagText tagSet s →
      pfx pr.1 s = true → TagText tagSet pr.2 ∧ TagText tagSet (s.drop pr.1.length) := by
    intro pr hpr
    rcases List.mem_singleton.mp hpr with rfl
    exact hps_pat2 (S ("</ol>")) (S ("</p>")) (by decide) (by decide) (by decide)
      (TagText_tag1 (by decide))
  have hps32 : ∀ pr ∈ [(S ("<p><pre>"), S ("<pre>"))], ∀ s : Str, TagText tagSet s →
      pfx pr.1 s = true → TagText tagSet pr.2 ∧ TagText tagSet (s.drop pr.1.length) := by
    intro pr hpr
    rcases List.mem_singleton.mp hpr with rfl
    exact hps_pat2 (S ("<p>")) (S ("<pre>")) (by decide) (by decide) (by decide)
      (TagText_tag1 (by decide))
  have hps33 : ∀ pr ∈ [(S ("</pre></p>"), S ("</pre>"))], ∀ s : Str, TagText tagSet s →
      pfx pr.1 s = true → TagText tagSet pr.2 ∧ TagText tagSet (s.drop pr.1.length) := by
    intro pr hpr
    rcases List.mem_singleton.mp hpr with rfl
    exact hps_pat2 (S ("</pre>")) (S ("</p>")) (by decide) (by decide) (by decide)
      (TagText_tag1 (by decide))
  have hps34 : ∀ pr ∈ [(S ("<p></p>"), ([] : Str))], ∀ s : Str, TagText tagSet s →
      pfx pr.1 s = true → TagText tagSet pr.2 ∧ TagText tagSet (s.drop pr.1.length) := by
    intro pr hpr
    rcases List.mem_singleton.mp hpr with rfl
    exact hps_pat2 (S ("<p>")) (S ("</p>")) (by decide) (by decide) (by decide)
      TagText.nil
  have hps36 : ∀ pr ∈ [(S ("<p><br></p>"), ([] : Str))], ∀ s : Str, TagText tagSet s →
      pfx pr.1 s = true → TagText tagSet pr.2 ∧ TagText tagSet (s.drop pr.1.length) := by
    intro pr hpr
    rcases List.mem_singleton.mp hpr with rfl
    exact hps_pat3 (S ("<p>")) (S ("<br>")) (S ("</p>")) (by decide) (by decide)
      (by decide) (by decide) TagText.nil
  have h1 : TagText tagSet (escapeHtml t) := TagText_of_angleFree (angleFree_escapeHtml t)
  have h2 := rwAll_TagText mCode_prog mCode_bound mCode_mid _ h1
  have h3 := rwAll_TagText mInline_prog mInline_bound mInline_mid _ h2
  have h4 := rwAll_TagText mBold_prog mBold_bound mBold_mid _ h3
  have h5 := rwAll_TagText (mEmph_prog (S ("*")))
    (mEmph_bound (S ("*")) '*' (by decide) (by decide) (by decide))
    (mEmph_mid (S ("*")) '*' (by decide) (by decide)) _ h4
  have h6 := rwAll_TagText (mEmph_prog (S ("_")))
    (mEmph_bound (S ("_")) '_' (by decide) (by decide) (by decide))
    (mEmph_mid (S ("_")) '_' (by decide) (by decide)) _ h5
  have h7 := lineMap_TagText hrLine_TT h6
  have h8 := lineMap_TagText bqLine_TT h7
  have h9 := lineMap_TagText
    (hLine_TT (S ("### ")) (S ("<h3>")) (S ("</h3>")) (by decide) (by decide) (by decide)) h8
  have h10 := lineMap_TagText
    (hLine_TT (S ("## ")) (S ("<h2>")) (S ("</h2>")) (by decide) (by decide) (by decide)) h9
  have h11 := lineMap_TagText
    (hLine_TT (S ("# ")) (S ("<h1>")) (S ("</h1>")) (by decide) (by decide) (by decide)) h10
  have h12 := lineMap_TagText olLine_TT h11
  have h13 := lineMap_TagText ulLine_TT h12
  have h14 := rwAll_TagText (mWrap_prog liOpenOl (S ("<ol>")) (S ("</ol>")) (by decide))
    (mWrap_bound liOpenOl (S ("<ol>")) (S ("</ol>")) (by decide) (by decide) (by decide))
    (mWrap_mid liOpenOl (S ("<ol>")) (S ("</ol>")) (by decide)) _ h13
  have h15 := classRemove_TagText (S ("class=\"ol-item\"")) liOpenOl (by decide)
    (by decide) classRemove_ol_trace (by decide) _ h14
  have h16 := rwAll_TagText (mWrap_prog liOpenUl (S ("<ul>")) (S ("</ul>")) (by decide))
    (mWrap_bound liOpenUl (S ("<ul>")) (S ("</ul>")) (by decide) (by decide) (by decide))
    (mWrap_mid liOpenUl (S ("<ul>")) (S ("</ul>")) (by decide)) _ h15
  have h17 := classRemove_TagText (S ("class=\"ul-item\"")) liOpenUl (by decide)
    (by decide) classRemove_ul_trace (by decide) _ h16
  have h19 := rwAll_TagText mPara_prog mPara_bound mPara_mid _ h17
  have h20 := brAll_TT h19
  have h21 := TagText_append (TagText_append
    (TagText_tag1 (show S ("<p>") ∈ tagSet from by decide)) h20)
    (TagText_tag1 (show S ("</p>") ∈ tagSet from by decide))
  have h22 := rwAll_TagText mTblUnwrap_prog mTblUnwrap_bound mTblUnwrap_mid _ h21
  have h23 := rwAll_TagText (mAny_prog _) (mAny_bound _ hps23)
    (mAny_mid_lt _ (by decide)) _ h22
  have h24 := rwAll_TagText (mAny_prog _) (mAny_bound _ hps24)
    (mAny_mid_lt _ (by decide)) _ h23
  have h25 := rwAll_TagText (mAny_prog _) (mAny_bound _ hps25)
    (mAny_mid_lt _ (by decide)) _ h24
  have h26 := rwAll_TagText (mAny_prog _) (mAny_bound _ hps26)
    (mAny_mid_lt _ (by decide)) _ h25
  have h27 := rwAll_TagText (mAny_prog _) (mAny_bound _ hps27)
    (mAny_mid_lt _ (by decide)) _ h26
  have h28 := rwAll_TagText (mAny_prog _) (mAny_bound _ hps28)
    (mAny_mid_lt _ (by decide)) _ h27
  have h29 := rwAll_TagText (mAny_prog _) (mAny_bound _ hps29)
    (mAny_mid_lt _ (by decide)) _ h28
  have h30 := rwAll_TagText (mAny_prog _) (mAny_bound _ hps30)
    (mAny_mid_lt _ (by decide)) _ h29
  have h31 := rwAll_TagText (mAny_prog _) (mAny_bound _ hps31)
    (mAny_mid_lt _ (by decide)) _ h30
  have h32 := rwAll_TagText (mAny_prog _) (mAny_bound _ hps32)
    (mAny_mid_lt _ (by decide)) _ h31
  have h33 := rwAll_TagText (mAny_prog _) (mAny_bound _ hps33)
    (mAny_mid_lt _ (by decide)) _ h32
  have h34 := rwAll_TagText (mAny_prog _) (mAny_bound _ hps34)
    (mAny_mid_lt _ (by decide)) _ h33
  have h35 := rwAll_TagText mEmptyP_prog mEmptyP_bound mEmptyP_mid _ h34
  have h36 := rwAll_TagText (mAny_prog _) (mAny_bound _ hps36)
    (mAny_mid_lt _ (by decide)) _ h35
  unfold afterProtect
  simp only [List.length_nil, restoreMarkers_zero, restoreTables_nil]
  exact h36

/-- Claim C8: frame property of the table extractor — the output line
list is related to the input by `PTFrame`: qualifying runs are replaced
by their rendered table and every other line is returned verbatim in its
original position; `parseTable` is exactly this line transformation
under the newline split/join (which reassembles the original line
breaks). -/
theorem c8_nontable_frame :
    (∀ ls : List Str, PTFrame ls (ptLines ls)) ∧
    (∀ s : Str, parseTable s = joinNl (ptLines (splitCh '\n' s))) :=
  ⟨fun ls => ptFrame_ptLines ls.length ls (Nat.le_refl _), fun _ => rfl⟩

/-- Claim C1 (amended): for every input with no pipe character and no
`<table class="chat-table">` substring, the table stages are identities
(no fragment is captured, no placeholder introduced) and the escaping
stage processes the entire text before any tag synthesis: afterwards the
text contains no `<` or `>` at all and every `&` heads one of the three
entities `&amp;`/`&lt;`/`&gt;` — so every `<`, `>`, `&` originating from
the input is escaped; the whole render is the post-protection pipeline
on the escaped text with an empty table list, and the final output obeys
the markup discipline: every `<` in it begins one of the renderer's own
tags (which is then present whole) and no `>` occurs outside those tags,
so only renderer-introduced tags are present unescaped (fifth conjunct).
In particular `render("<script>alert(1)</script>")` contains no
unescaped `<script>` (final conjunct).  Inputs that do contain the
chat-table pattern violate the original claim (see the
counterexample). -/
theorem c1_escape_before_tags :
    (∀ s : Str, '|' ∉ s → containsSeq ctOpen s = false →
      parseTable s = s ∧
      parseMarkdown s = afterProtect [] s ∧
      angleFreeB (escapeHtml s) = true ∧
      ampOk (escapeHtml s) = true ∧
      tagsOnly tagSet (parseMarkdown s) = true) ∧
    containsSeq (S ("<script>")) (parseMarkdown (S ("<script>alert(1)</script>"))) =
      false := by
  constructor
  · intro s hpipe hct
    have hpt : parseTable s = s := parseTable_id hpipe
    have hprot : protectT s = (s, []) := protGo_id hct
    have hpm : parseMarkdown s = afterProtect [] s := by
      show afterProtect (protectT (parseTable s)).2 (protectT (parseTable s)).1 =
        afterProtect [] s
      rw [hpt, hprot]
    refine ⟨hpt, hpm, angleFree_escapeHtml s, ampOk_escapeHtml s, ?_⟩
    rw [hpm]
    exact TagText_tagsOnly (afterProtect_nil_TagText s)
  · decide

/-- Witness for C1's amended theorem at the injection input, which has no
pipe and no chat-table pattern. -/
theorem c1_escape_before_tags_witness :
    ('|' ∉ S ("<script>alert(1)</script>")) ∧
    parseTable (S ("<script>alert(1)</script>")) = S ("<script>alert(1)</script>") :=
  ⟨by decide,
   (c1_escape_before_tags.1 (S ("<script>alert(1)</script>"))
      (by decide) (by decide)).1⟩

end FA
